import Mathlib

/-!
Verification of the hsd-axfr plugin (`src/lib/axfr.js`) against its
natural-language specification.

The development shallowly embeds the plugin's pure core:

* `MessageWriter` — the outbound chunk writer (`reset`, `writeRR`,
  `writeAll`, `flush`).  Resource records are abstracted to an arbitrary
  type `α` together with a size function `sz : α → Nat` modelling
  `rr.getSize(null)`; the base size of the freshly reset reply message
  (`msg.getSize(null)` with an empty answer section) is the parameter
  `base`.  The injected write callback is modelled by `cb : List α → Bool`
  (the message handed over is its answer list; serialization/compression
  is external).  Each operation returns the list of messages handed to
  the callback alongside the resulting state.

* `AXFRQuery.read` — the TCP reassembly state machine.  Bytes are `Nat`s,
  `Message.decode` is an abstract parameter `decode : List Nat → Option Msg`.

* `AXFRClient.query` — the retry/failover loop, with the per-attempt
  exchange abstracted to `attempt : Server → Except String (List Msg)`.

* `AXFRValidator` — `verifyZone`, `verifyNSEC`, `verifyBitmap`, with
  `dnssec.verifyMessage(buf, keyMap)` abstracted to
  `verify : List RR → Bool`.

* `Plugin.pickRRs` and the emission phases of `Plugin.sendAXFR`.

Domain names are label lists (`"ns1.example."` is `["ns1", "example"]`,
the root `"."` is `[]`).  JS `Set`s are modelled as duplicate-free lists
(`setAdd` inserts if absent, `setDelete` removes all occurrences, which
on a duplicate-free list agrees with `Set.delete`).
-/

set_option maxRecDepth 4000

namespace Axfr

/-- Record type numbers from `bns` `wire.types` used by the plugin. -/
def tA : Nat := 1

/-- `types.NS`. -/
def tNS : Nat := 2

/-- `types.SOA`. -/
def tSOA : Nat := 6

/-- `types.AAAA`. -/
def tAAAA : Nat := 28

/-- `types.RRSIG`. -/
def tRRSIG : Nat := 46

/-- `types.NSEC`. -/
def tNSEC : Nat := 47

/-- `types.NSEC3`. -/
def tNSEC3 : Nat := 50

/-- `const MAX_MESSAGE_SIZE = 65535` from `src/lib/axfr.js`. -/
def MAX_MESSAGE_SIZE : Nat := 65535

/-- A domain name as its list of labels; the root name `"."` is `[]`. -/
abbrev Name := List String

/-- A resource record.  Only the fields the plugin inspects are kept:
owner name, record type, and the rdata fields it reads
(`rr.data.ns` for NS, `rr.data.nextDomain` and the type bitmap for NSEC). -/
structure RR where
  name : Name
  type : Nat
  ns : Name
  nextDomain : Name
  nsecTypes : List Nat
deriving DecidableEq, Repr

/-- A decoded DNS message as the plugin sees it: id and answer section. -/
structure Msg where
  id : Nat
  answer : List RR
deriving DecidableEq, Repr

/-- JS `Set.add`: append if not already present (insertion order kept). -/
def setAdd {α : Type} [DecidableEq α] (s : List α) (a : α) : List α :=
  if a ∈ s then s else s ++ [a]

/-- JS `Set.delete` on a duplicate-free list: remove the element. -/
def setDelete {α : Type} [DecidableEq α] (s : List α) (a : α) : List α :=
  s.filter (fun x => x ≠ a)

/-- `util.extractSet(records, name, type)` from bns: the records whose
owner name and type both match. -/
def extractSet (rrs : List RR) (name : Name) (t : Nat) : List RR :=
  rrs.filter (fun rr => rr.name = name ∧ rr.type = t)

/-- `util.hasType(records, type)` from bns. -/
def hasType (rrs : List RR) (t : Nat) : Bool :=
  rrs.any (fun rr => rr.type = t)

/-- `util.filterSet(records, ...types)` from bns: drop records whose type
is among the given ones. -/
def filterSet (rrs : List RR) (ts : List Nat) : List RR :=
  rrs.filter (fun rr => rr.type ∉ ts)

/-- `util.fqdn(util.from(name, -1))`: the name formed by the last label
alone (for the root name this is the root itself). -/
def fromNeg1 (n : Name) : Name :=
  match n.getLast? with
  | some l => [l]
  | none => []

/-- Error-propagating left fold (models a JS loop whose body may `throw`). -/
def foldE {α β : Type} (f : β → α → Except String β) : β → List α → Except String β
  | b, [] => .ok b
  | b, a :: as =>
    match f b a with
    | .error e => .error e
    | .ok b2 => foldE f b2 as

theorem foldE_append {α β : Type} (f : β → α → Except String β) (b : β)
    (l1 l2 : List α) :
    foldE f b (l1 ++ l2) =
      match foldE f b l1 with
      | .error e => .error e
      | .ok b2 => foldE f b2 l2 := by
  induction l1 generalizing b with
  | nil => simp [foldE]
  | cons a as ih =>
    simp only [List.cons_append, foldE]
    cases f b a with
    | error e => rfl
    | ok b2 => exact ih b2

/-! ## MessageWriter (`src/lib/axfr.js` lines 763-804) -/

namespace MessageWriter

/-- The writer's mutable state: the in-progress message's answer list,
the running approximate size (`this.size`), and the total-written counter. -/
structure State (α : Type) where
  answer : List α
  size : Nat
  written : Nat
deriving DecidableEq, Repr

/-- `reset()`: clear the answer section and re-seed the size with the
empty reply message's size (`this.msg.getSize(null)`), the constant `base`. -/
def reset {α : Type} (base : Nat) (st : State α) : State α :=
  { answer := [], size := base, written := st.written }

/-- The state after the constructor: `setReply` then `reset()`, zero written. -/
def initState (α : Type) (base : Nat) : State α :=
  { answer := [], size := base, written := 0 }

/-- `flush()`: no-op when `this.size === 0`; otherwise hand the current
message to the write callback, throw if the callback reports failure,
else `reset()`.  The first component lists the messages handed to the
callback (the message is handed before its result is known). -/
def flush {α : Type} (base : Nat) (cb : List α → Bool) (st : State α) :
    List (List α) × Except String (State α) :=
  if st.size = 0 then ([], .ok st)
  else ([st.answer],
    if cb st.answer then .ok (reset base st) else .error "unable to write message")

/-- `writeRR(rr)`: bump the written counter; if the record's size would
push the running size past `MAX_MESSAGE_SIZE`, flush first; then add the
record's size and append it to the answer section. -/
def writeRR {α : Type} (base : Nat) (sz : α → Nat) (cb : List α → Bool)
    (st : State α) (rr : α) : List (List α) × Except String (State α) :=
  let st1 : State α := { st with written := st.written + 1 }
  let s := sz rr
  if s + st1.size > MAX_MESSAGE_SIZE then
    match flush base cb st1 with
    | (out, .ok st2) =>
      (out, .ok { st2 with size := st2.size + s, answer := st2.answer ++ [rr] })
    | (out, .error e) => (out, .error e)
  else
    ([], .ok { st1 with size := st1.size + s, answer := st1.answer ++ [rr] })

/-- `writeAll(rrs)`: `writeRR` in order, aborting on the first failure. -/
def writeAll {α : Type} (base : Nat) (sz : α → Nat) (cb : List α → Bool) :
    State α → List α → List (List α) × Except String (State α)
  | st, [] => ([], .ok st)
  | st, rr :: rrs =>
    match writeRR base sz cb st rr with
    | (out, .ok st2) =>
      match writeAll base sz cb st2 rrs with
      | (out2, r) => (out ++ out2, r)
    | (out, .error e) => (out, .error e)

/-- A whole writer session as `Plugin.sendAXFR` drives it: start from the
fresh state, write every record, then a final `flush`. -/
def run {α : Type} (base : Nat) (sz : α → Nat) (cb : List α → Bool)
    (rrs : List α) : List (List α) × Except String (State α) :=
  match writeAll base sz cb (initState α base) rrs with
  | (out, .ok st) =>
    match flush base cb st with
    | (out2, r) => (out ++ out2, r)
  | (out, .error e) => (out, .error e)

/-- The serialized size (without compression) of a message whose answer
section holds `m`: the base size plus the records' sizes. -/
def msgSize {α : Type} (base : Nat) (sz : α → Nat) (m : List α) : Nat :=
  base + (m.map sz).sum

/-- The size-accounting invariant the writer maintains: the tracked size
is the message's serialized size, and it never exceeds the maximum. -/
def SizeInv {α : Type} (base : Nat) (sz : α → Nat) (st : State α) : Prop :=
  st.size = msgSize base sz st.answer ∧ st.size ≤ MAX_MESSAGE_SIZE

theorem flush_eq_zero {α : Type} (base : Nat) (cb : List α → Bool)
    (st : State α) (h0 : st.size = 0) : flush base cb st = ([], .ok st) := by
  simp [flush, h0]

theorem flush_eq_pos {α : Type} (base : Nat) (cb : List α → Bool)
    (st : State α) (h0 : st.size ≠ 0) (hcb : cb st.answer = true) :
    flush base cb st = ([st.answer], .ok (reset base st)) := by
  simp [flush, h0, hcb]

theorem flush_eq_fail {α : Type} (base : Nat) (cb : List α → Bool)
    (st : State α) (h0 : st.size ≠ 0) (hcb : cb st.answer = false) :
    flush base cb st = ([st.answer], .error "unable to write message") := by
  simp [flush, h0, hcb]

theorem writeRR_eq_flush {α : Type} (base : Nat) (sz : α → Nat)
    (cb : List α → Bool) (st : State α) (rr : α)
    (hbig : MAX_MESSAGE_SIZE < sz rr + st.size) :
    writeRR base sz cb st rr =
      (match flush base cb { st with written := st.written + 1 } with
       | (out, .ok st2) =>
         (out, .ok { answer := st2.answer ++ [rr], size := st2.size + sz rr,
                     written := st2.written })
       | (out, .error e) => (out, .error e)) := by
  simp [writeRR, hbig]

theorem writeRR_eq_push {α : Type} (base : Nat) (sz : α → Nat)
    (cb : List α → Bool) (st : State α) (rr : α)
    (hsmall : ¬ MAX_MESSAGE_SIZE < sz rr + st.size) :
    writeRR base sz cb st rr =
      ([], .ok { answer := st.answer ++ [rr], size := st.size + sz rr,
                 written := st.written + 1 }) := by
  simp [writeRR, hsmall]

theorem flush_sizeInv {α : Type} (base : Nat) (sz : α → Nat)
    (cb : List α → Bool) (st : State α)
    (hbase : base ≤ MAX_MESSAGE_SIZE) (hinv : SizeInv base sz st)
    (out : List (List α)) (r : Except String (State α))
    (hfl : flush base cb st = (out, r)) :
    (∀ m ∈ out, msgSize base sz m ≤ MAX_MESSAGE_SIZE) ∧
    (∀ st2, r = .ok st2 → SizeInv base sz st2 ∧ st2.size ≤ base) := by
  obtain ⟨h1, h2⟩ := hinv
  by_cases h0 : st.size = 0
  · rw [flush_eq_zero base cb st h0] at hfl
    rw [Prod.mk.injEq] at hfl
    obtain ⟨rfl, rfl⟩ := hfl
    refine ⟨by simp, fun st2 hst2 => ?_⟩
    simp only [Except.ok.injEq] at hst2
    subst hst2
    exact ⟨⟨h1, h2⟩, by omega⟩
  · by_cases hcb : cb st.answer
    · rw [flush_eq_pos base cb st h0 hcb] at hfl
      rw [Prod.mk.injEq] at hfl
      obtain ⟨rfl, rfl⟩ := hfl
      refine ⟨fun m hm => ?_, fun st2 hst2 => ?_⟩
      · simp only [List.mem_singleton] at hm
        subst hm
        omega
      · simp only [Except.ok.injEq] at hst2
        subst hst2
        refine ⟨⟨?_, ?_⟩, ?_⟩
        · simp [reset, msgSize]
        · simpa [reset] using hbase
        · simp [reset]
    · rw [flush_eq_fail base cb st h0 (by simpa using hcb)] at hfl
      rw [Prod.mk.injEq] at hfl
      obtain ⟨rfl, rfl⟩ := hfl
      refine ⟨fun m hm => ?_, fun st2 hst2 => ?_⟩
      · simp only [List.mem_singleton] at hm
        subst hm
        omega
      · simp at hst2

theorem writeRR_sizeInv {α : Type} (base : Nat) (sz : α → Nat)
    (cb : List α → Bool) (st : State α) (rr : α)
    (hbase : base ≤ MAX_MESSAGE_SIZE) (hinv : SizeInv base sz st)
    (hrr : base + sz rr ≤ MAX_MESSAGE_SIZE)
    (out : List (List α)) (r : Except String (State α))
    (hwr : writeRR base sz cb st rr = (out, r)) :
    (∀ m ∈ out, msgSize base sz m ≤ MAX_MESSAGE_SIZE) ∧
    (∀ st2, r = .ok st2 → SizeInv base sz st2) := by
  obtain ⟨h1, h2⟩ := hinv
  by_cases hbig : MAX_MESSAGE_SIZE < sz rr + st.size
  · rw [writeRR_eq_flush base sz cb st rr hbig] at hwr
    have hinv1 : SizeInv base sz { st with written := st.written + 1 } := ⟨h1, h2⟩
    obtain ⟨fout, fr, hfl⟩ :
        ∃ o r2, flush base cb { st with written := st.written + 1 } = (o, r2) :=
      ⟨_, _, rfl⟩
    obtain ⟨hfl1, hfl2⟩ := flush_sizeInv base sz cb _ hbase hinv1 fout fr hfl
    rw [hfl] at hwr
    cases fr with
    | ok st2 =>
      obtain ⟨⟨hi1, hi2⟩, hle⟩ := hfl2 st2 rfl
      simp only [Prod.mk.injEq] at hwr
      obtain ⟨rfl, rfl⟩ := hwr
      refine ⟨hfl1, fun st3 hst3 => ?_⟩
      simp only [Except.ok.injEq] at hst3
      subst hst3
      have hsum : (List.map sz (st2.answer ++ [rr])).sum =
          (List.map sz st2.answer).sum + sz rr := by simp
      refine ⟨?_, ?_⟩
      · show st2.size + sz rr = msgSize base sz (st2.answer ++ [rr])
        simp only [msgSize] at hi1 ⊢
        omega
      · show st2.size + sz rr ≤ MAX_MESSAGE_SIZE
        omega
    | error e =>
      simp only [Prod.mk.injEq] at hwr
      obtain ⟨rfl, rfl⟩ := hwr
      refine ⟨hfl1, fun st3 hst3 => ?_⟩
      simp at hst3
  · rw [writeRR_eq_push base sz cb st rr hbig] at hwr
    simp only [Prod.mk.injEq] at hwr
    obtain ⟨rfl, rfl⟩ := hwr
    refine ⟨by simp, fun st2 hst2 => ?_⟩
    simp only [Except.ok.injEq] at hst2
    subst hst2
    have hsum : (List.map sz (st.answer ++ [rr])).sum =
        (List.map sz st.answer).sum + sz rr := by simp
    refine ⟨?_, ?_⟩
    · show st.size + sz rr = msgSize base sz (st.answer ++ [rr])
      simp only [msgSize] at h1 ⊢
      omega
    · show st.size + sz rr ≤ MAX_MESSAGE_SIZE
      omega

theorem writeAll_sizeInv {α : Type} (base : Nat) (sz : α → Nat)
    (cb : List α → Bool) (rrs : List α) (st : State α)
    (hbase : base ≤ MAX_MESSAGE_SIZE) (hinv : SizeInv base sz st)
    (hrr : ∀ rr ∈ rrs, base + sz rr ≤ MAX_MESSAGE_SIZE)
    (out : List (List α)) (r : Except String (State α))
    (hwa : writeAll base sz cb st rrs = (out, r)) :
    (∀ m ∈ out, msgSize base sz m ≤ MAX_MESSAGE_SIZE) ∧
    (∀ st2, r = .ok st2 → SizeInv base sz st2) := by
  induction rrs generalizing st out r with
  | nil =>
    simp only [writeAll] at hwa
    rw [Prod.mk.injEq] at hwa
    obtain ⟨rfl, rfl⟩ := hwa
    refine ⟨by simp, fun st2 hst2 => ?_⟩
    simp only [Except.ok.injEq] at hst2
    subst hst2
    exact hinv
  | cons rr rrs ih =>
    have hrr0 : base + sz rr ≤ MAX_MESSAGE_SIZE := hrr rr (by simp)
    obtain ⟨wout, wr, hwr⟩ : ∃ o r2, writeRR base sz cb st rr = (o, r2) :=
      ⟨_, _, rfl⟩
    obtain ⟨hw1, hw2⟩ := writeRR_sizeInv base sz cb st rr hbase hinv hrr0 wout wr hwr
    simp only [writeAll] at hwa
    rw [hwr] at hwa
    cases wr with
    | ok st2 =>
      have hinv2 : SizeInv base sz st2 := hw2 st2 rfl
      obtain ⟨aout, ar, hwa2⟩ : ∃ o r2, writeAll base sz cb st2 rrs = (o, r2) :=
        ⟨_, _, rfl⟩
      obtain ⟨hi1, hi2⟩ := ih st2 hinv2
        (fun x hx => hrr x (List.mem_cons_of_mem _ hx)) aout ar hwa2
      simp only [hwa2, Prod.mk.injEq] at hwa
      obtain ⟨rfl, rfl⟩ := hwa
      refine ⟨fun m hm => ?_, hi2⟩
      rcases List.mem_append.mp hm with h | h
      · exact hw1 m h
      · exact hi1 m h
    | error e =>
      simp only [Prod.mk.injEq] at hwa
      obtain ⟨rfl, rfl⟩ := hwa
      refine ⟨hw1, fun st3 hst3 => ?_⟩
      simp at hst3

end MessageWriter

/-- Claim C3 (amended): over a writer session, provided the base reply
size fits in a message and every submitted record fits in an otherwise
empty message (`base + sz rr ≤ 65535`), every message handed to the
write callback has serialized size at most `MAX_MESSAGE_SIZE = 65535`;
the `writeRR` definition flushes first whenever appending the record
would push the running size past the limit. -/
theorem axfr_C3_writer_size_bound {α : Type} (base : Nat) (sz : α → Nat)
    (cb : List α → Bool) (rrs : List α)
    (hbase : base ≤ MAX_MESSAGE_SIZE)
    (hrr : ∀ rr ∈ rrs, base + sz rr ≤ MAX_MESSAGE_SIZE) :
    ∀ m ∈ (MessageWriter.run base sz cb rrs).1,
      MessageWriter.msgSize base sz m ≤ MAX_MESSAGE_SIZE := by
  intro m hm
  have hinv0 : MessageWriter.SizeInv base sz (MessageWriter.initState α base) :=
    ⟨by simp [MessageWriter.initState, MessageWriter.msgSize], by
      simpa [MessageWriter.initState] using hbase⟩
  obtain ⟨out, r, hwa⟩ :
      ∃ o r, MessageWriter.writeAll base sz cb (MessageWriter.initState α base) rrs
        = (o, r) := ⟨_, _, rfl⟩
  obtain ⟨hw1, hw2⟩ :=
    MessageWriter.writeAll_sizeInv base sz cb rrs (MessageWriter.initState α base)
      hbase hinv0 hrr out r hwa
  simp only [MessageWriter.run] at hm
  rw [hwa] at hm
  cases r with
  | ok st =>
    have hinv : MessageWriter.SizeInv base sz st := hw2 st rfl
    obtain ⟨out2, r2, hfl⟩ : ∃ o r2, MessageWriter.flush base cb st = (o, r2) :=
      ⟨_, _, rfl⟩
    obtain ⟨hf1, _⟩ :=
      MessageWriter.flush_sizeInv base sz cb st hbase hinv out2 r2 hfl
    simp only [hfl] at hm
    rcases List.mem_append.mp hm with h | h
    · exact hw1 m h
    · exact hf1 m h
  | error e => exact hw1 m hm

/-- Witness for C3: a concrete session (base 12, records of size 100 and
200) where the theorem's hypotheses hold and the single emitted message
is within the bound. -/
theorem axfr_C3_writer_size_bound_witness :
    MessageWriter.msgSize 12 (fun n => n) [100, 200] ≤ MAX_MESSAGE_SIZE :=
  axfr_C3_writer_size_bound 12 (fun n => n) (fun _ => true) [100, 200]
    (by decide) (by decide) [100, 200] (by decide)

/-- Counterexample for C3 as stated: a single record of size 65536
(with base reply size 12) is flushed into its own message of serialized
size 65548 > 65535, so a message handed to the callback does exceed the
wire maximum.  (The preceding flush also emits the then-current buffer,
here an empty message, showing the flush-first behavior.) -/
theorem axfr_C3_counterexample :
    (MessageWriter.run 12 (fun n => n) (fun _ => true) [65536]).1 =
      [[], [65536]] ∧
    MessageWriter.msgSize 12 (fun n => n) [65536] = 65548 ∧
    65548 > MAX_MESSAGE_SIZE := by decide

/-- Claim C8 (amended): `flush` is a no-op (zero callback invocations)
exactly when the tracked size is 0 — not when the record buffer is
empty; with nonzero tracked size it hands the current answer to the
callback, on callback success resets to the freshly-seeded state, and on
callback failure fails with an error that cancels the transfer.  Since
`reset` seeds the size with the base reply size, which is positive for
any real DNS message, `flush` on an empty record buffer still sends an
empty message. -/
theorem axfr_C8_flush_spec {α : Type} (base : Nat) (cb : List α → Bool)
    (st : MessageWriter.State α) :
    (st.size = 0 → MessageWriter.flush base cb st = ([], .ok st)) ∧
    (st.size ≠ 0 → cb st.answer = true →
      MessageWriter.flush base cb st =
        ([st.answer], .ok (MessageWriter.reset base st))) ∧
    (st.size ≠ 0 → cb st.answer = false →
      MessageWriter.flush base cb st =
        ([st.answer], .error "unable to write message")) :=
  ⟨fun h => MessageWriter.flush_eq_zero base cb st h,
   fun h hc => MessageWriter.flush_eq_pos base cb st h hc,
   fun h hc => MessageWriter.flush_eq_fail base cb st h hc⟩

/-- Witness for C8: the non-empty-buffer branch at a concrete state. -/
theorem axfr_C8_flush_spec_witness :
    MessageWriter.flush 12 (fun _ => true)
        (⟨[3], 20, 1⟩ : MessageWriter.State Nat) =
      ([[3]], .ok ⟨[], 12, 1⟩) := by
  have h := (axfr_C8_flush_spec 12 (fun _ => true)
    (⟨[3], 20, 1⟩ : MessageWriter.State Nat)).2.1 (by decide) rfl
  simpa [MessageWriter.reset] using h

/-- Counterexample for C8 as stated: on the freshly-constructed state
(empty record buffer, size seeded with base 12), `flush` hands one
(empty) message to the write callback rather than invoking it zero
times. -/
theorem axfr_C8_counterexample :
    (MessageWriter.flush 12 (fun _ => true)
        (MessageWriter.initState Nat 12)).1 = [[]] ∧
    ([[]] : List (List Nat)) ≠ [] := by decide

/-! ## AXFRQuery (`src/lib/axfr.js` lines 521-641)

`AXFRQuery.read(data)` reassembles length-prefixed DNS messages from a
TCP byte stream.  The mutable fields it uses are `buf`/`size` (modelled
as one growing byte list, whose length is `this.size`), `target`,
`msgs`, `id` and `ok`.  `Message.decode` is the abstract parameter
`decode` (`none` models a decoding exception). -/

namespace AXFRQuery

/-- The per-attempt reassembly state. -/
structure QState where
  buf : List Nat
  target : Nat
  msgs : List Msg
  id : Nat
  ok : Bool
deriving DecidableEq, Repr

/-- The state at the start of an attempt with query id `qid`. -/
def initQ (qid : Nat) : QState :=
  { buf := [], target := 0, msgs := [], id := qid, ok := false }

/-- The body of `read` after the length prefix has been consumed:
copy at most `target - size` bytes, and when the frame completes decode
it, run the per-message checks, and either resolve (last record SOA),
or reset for the next frame.  The second component is the `remaining`
slice that `read` recursively processes. -/
def readCore (decode : List Nat → Option Msg) (maxMessages : Nat)
    (st : QState) (data : List Nat) :
    Except String (QState × Option (List Nat)) :=
  let writeLength :=
    if st.target < st.buf.length + data.length then st.target - st.buf.length
    else data.length
  let remaining : Option (List Nat) :=
    if st.target < st.buf.length + data.length then some (data.drop writeLength)
    else none
  let st1 : QState := { st with buf := st.buf ++ data.take writeLength }
  if st1.buf.length = st1.target then
    match decode st1.buf with
    | none => .error "Message.decode failed"
    | some msg =>
      if msg.id ≠ st1.id then .error "Message id does not match"
      else if msg.answer = [] then .error "Empty message"
      else if st1.msgs = [] ∧ msg.answer.head?.map RR.type ≠ some tSOA then
        .error "First record must be SOA"
      else if maxMessages < st1.msgs.length + 1 then
        .error ("Transfer is too large (max messages: " ++
          toString maxMessages ++ ")")
      else if msg.answer.getLast?.map RR.type = some tSOA then
        .ok ({ st1 with msgs := st1.msgs ++ [msg], ok := true }, none)
      else
        .ok ({ st1 with msgs := st1.msgs ++ [msg], target := 0, buf := [] },
          remaining)
  else
    .ok (st1, remaining)

/-- One pass of `read`: when no frame is in progress the first two bytes
of the chunk are the big-endian frame length — a chunk of fewer than two
bytes is rejected (`assert(data.length > 1)`) — then `readCore`. -/
def readStep (decode : List Nat → Option Msg) (maxMessages : Nat)
    (st : QState) (data : List Nat) :
    Except String (QState × Option (List Nat)) :=
  match st.target, data with
  | 0, [] => .error "Malformed packet received"
  | 0, [_] => .error "Malformed packet received"
  | 0, b0 :: b1 :: rest =>
    readCore decode maxMessages { st with target := b0 * 256 + b1 } rest
  | _ + 1, d => readCore decode maxMessages st d

/-- `read(data)`: process the chunk, then recursively process any
`remaining` bytes belonging to the next frame.  The source recursion
terminates because each recursive call consumes at least the two prefix
bytes or one payload byte; the embedding makes this explicit with fuel. -/
def read (decode : List Nat → Option Msg) (maxMessages : Nat) :
    Nat → QState → List Nat → Except String QState
  | 0, _, _ => .error "reassembly ran out of fuel"
  | fuel + 1, st, data =>
    match readStep decode maxMessages st data with
    | .error e => .error e
    | .ok (st2, none) => .ok st2
    | .ok (st2, some r) => read decode maxMessages fuel st2 r

/-- Deliver a sequence of socket chunks to `read`.  Once `ok` is set the
attempt has resolved (the socket is destroyed) and later chunks are
ignored.  Fuel `c.length + 1` dominates the recursion depth since every
recursive call strictly shortens the data. -/
def readChunks (decode : List Nat → Option Msg) (maxMessages : Nat) :
    QState → List (List Nat) → Except String QState
  | st, [] => .ok st
  | st, c :: cs =>
    if st.ok then .ok st
    else
      match read decode maxMessages (c.length + 1) st c with
      | .error e => .error e
      | .ok st2 => readChunks decode maxMessages st2 cs

theorem readCore_msgs_le (decode : List Nat → Option Msg) (maxM : Nat)
    (st : QState) (data : List Nat) (st2 : QState) (rem : Option (List Nat))
    (h : st.msgs.length ≤ maxM)
    (hc : readCore decode maxM st data = .ok (st2, rem)) :
    st2.msgs.length ≤ maxM := by
  simp only [readCore] at hc
  repeat' split at hc
  all_goals
    first
      | exact Except.noConfusion hc
      | (simp only [Except.ok.injEq, Prod.mk.injEq] at hc
         obtain ⟨h1, h2⟩ := hc
         subst h1
         simp only [List.length_append, List.length_cons, List.length_nil]
         omega)

theorem readStep_msgs_le (decode : List Nat → Option Msg) (maxM : Nat)
    (st : QState) (data : List Nat) (st2 : QState) (rem : Option (List Nat))
    (h : st.msgs.length ≤ maxM)
    (hc : readStep decode maxM st data = .ok (st2, rem)) :
    st2.msgs.length ≤ maxM := by
  unfold readStep at hc
  split at hc
  · exact Except.noConfusion hc
  · exact Except.noConfusion hc
  · exact readCore_msgs_le decode maxM _ _ st2 rem (by exact h) hc
  · exact readCore_msgs_le decode maxM _ _ st2 rem (by exact h) hc

theorem read_msgs_le (decode : List Nat → Option Msg) (maxM : Nat) :
    ∀ (fuel : Nat) (st : QState) (data : List Nat) (st2 : QState),
      st.msgs.length ≤ maxM → read decode maxM fuel st data = .ok st2 →
      st2.msgs.length ≤ maxM := by
  intro fuel
  induction fuel with
  | zero => intro st data st2 _ hr; exact Except.noConfusion hr
  | succ fuel ih =>
    intro st data st2 h hr
    simp only [read] at hr
    cases hs : readStep decode maxM st data with
    | error e =>
      rw [hs] at hr
      exact Except.noConfusion hr
    | ok p =>
      obtain ⟨st3, rem⟩ := p
      rw [hs] at hr
      have h3 := readStep_msgs_le decode maxM st data st3 rem h hs
      cases rem with
      | none =>
        simp only [Except.ok.injEq] at hr
        subst hr
        exact h3
      | some r => exact ih st3 r st2 h3 hr

theorem readChunks_msgs_le (decode : List Nat → Option Msg) (maxM : Nat) :
    ∀ (chunks : List (List Nat)) (st : QState) (st2 : QState),
      st.msgs.length ≤ maxM →
      readChunks decode maxM st chunks = .ok st2 →
      st2.msgs.length ≤ maxM := by
  intro chunks
  induction chunks with
  | nil =>
    intro st st2 h hr
    simp only [readChunks, Except.ok.injEq] at hr
    subst hr
    exact h
  | cons c cs ih =>
    intro st st2 h hr
    simp only [readChunks] at hr
    split at hr
    · simp only [Except.ok.injEq] at hr
      subst hr
      exact h
    · cases hread : read decode maxM (c.length + 1) st c with
      | error e =>
        rw [hread] at hr
        exact Except.noConfusion hr
      | ok st3 =>
        rw [hread] at hr
        exact ih st3 st2 (read_msgs_le decode maxM _ st c st3 h hread) hr

end AXFRQuery

/-- Claim C6: starting from a fresh attempt, however the byte stream is
chunked, any successfully reached reassembly state holds at most
`maxMessages` completed messages — `read` fails with "Transfer is too
large" before the list would outgrow the ceiling. -/
theorem axfr_C6_message_ceiling (decode : List Nat → Option Msg)
    (maxM qid : Nat) (chunks : List (List Nat)) (st2 : AXFRQuery.QState)
    (h : AXFRQuery.readChunks decode maxM (AXFRQuery.initQ qid) chunks
      = .ok st2) :
    st2.msgs.length ≤ maxM :=
  AXFRQuery.readChunks_msgs_le decode maxM chunks (AXFRQuery.initQ qid) st2
    (by simp [AXFRQuery.initQ]) h

/-- A one-message transfer used to witness C6: decoding `[9]` yields a
single-SOA answer with id 5. -/
def c6Msg : Msg := { id := 5, answer := [⟨[], tSOA, [], [], []⟩] }

/-- The abstract decoder for the C6 witness stream. -/
def c6Decode : List Nat → Option Msg :=
  fun b => if b = [9] then some c6Msg else none

/-- Witness for C6 at a concrete completed transfer. -/
theorem axfr_C6_message_ceiling_witness :
    (⟨[9], 1, [c6Msg], 5, true⟩ : AXFRQuery.QState).msgs.length ≤ 1000 :=
  axfr_C6_message_ceiling c6Decode 1000 5 [[0, 1, 9]]
    ⟨[9], 1, [c6Msg], 5, true⟩ rfl

/-- The message decoded in the C1 failing-input run: a single-SOA answer
with id 0, produced by decoding the frame payload `[7]`. -/
def c1Msg : Msg := { id := 0, answer := [⟨[], tSOA, [], [], []⟩] }

/-- The abstract decoder for the C1 failing-input run. -/
def c1Decode : List Nat → Option Msg :=
  fun b => if b = [7] then some c1Msg else none

/-- Claim C1 is violated by the code (code bug): the same completed
response byte stream `[0, 1, 7]` (2-byte length prefix `1`, then the
frame `[7]`) decodes to one message when delivered as a single chunk,
but delivering it byte-by-byte hits `assert(data.length > 1)` and fails
with "Malformed packet received" on the very first 1-byte chunk, so the
decoded message sequences differ with the partition. -/
theorem axfr_C1_read_boundary_dependent :
    AXFRQuery.readChunks c1Decode 1000 (AXFRQuery.initQ 0) [[0, 1, 7]] =
      .ok ⟨[7], 1, [c1Msg], 0, true⟩ ∧
    AXFRQuery.readChunks c1Decode 1000 (AXFRQuery.initQ 0) [[0], [1], [7]] =
      .error "Malformed packet received" ∧
    ([[0], [1], [7]] : List (List Nat)).flatten = [0, 1, 7] :=
  ⟨rfl, rfl, rfl⟩

/-! ## AXFRClient (`src/lib/axfr.js` lines 453-519)

`query(zone)` tries up to `maxAttempts` exchanges; each failed attempt
logs a warning naming the server (`Attempt [host:port] failed: e`) and
advances the round-robin cursor.  The per-attempt exchange is abstracted
to `attempt : Server → Except String (List Msg)`. -/

namespace AXFRClient

/-- A configured server endpoint (`IP.fromHost(server, 53)`). -/
structure Server where
  host : String
  port : Nat
deriving DecidableEq, Repr

/-- The attempt loop of `query`: the remaining attempt budget, the
round-robin cursor `this.index`, and the failures logged so far (host,
port, error text).  Returns the first successful message list, or
`none` when the budget is exhausted. -/
def queryGo (attempt : Server → Except String (List Msg))
    (servers : List Server) :
    Nat → Nat → List (String × Nat × String) →
      Option (List Msg) × List (String × Nat × String)
  | 0, _, logs => (none, logs)
  | i + 1, idx, logs =>
    let server := servers.getD idx ⟨"", 0⟩
    match attempt server with
    | .ok msgs => (some msgs, logs)
    | .error e =>
      queryGo attempt servers i ((idx + 1) % servers.length)
        (logs ++ [(server.host, server.port, e)])

/-- `query(zone)`: start at the current cursor (0 for a fresh client)
with the default attempt ceiling of the constructor (`maxAttempts = 6`
unless configured). -/
def query (attempt : Server → Except String (List Msg))
    (servers : List Server) (maxAttempts : Nat) :
    Option (List Msg) × List (String × Nat × String) :=
  queryGo attempt servers maxAttempts 0 []

end AXFRClient

/-- Claim C7: with 3 configured servers whose first two exchanges fail
and whose third succeeds, `query` (at the default attempt ceiling 6)
returns the third server's message list and logs exactly two failures,
one naming each failed server. -/
theorem axfr_C7_failover (attempt : AXFRClient.Server → Except String (List Msg))
    (s1 s2 s3 : AXFRClient.Server) (e1 e2 : String) (msgs : List Msg)
    (h1 : attempt s1 = .error e1) (h2 : attempt s2 = .error e2)
    (h3 : attempt s3 = .ok msgs) :
    AXFRClient.query attempt [s1, s2, s3] 6 =
      (some msgs, [(s1.host, s1.port, e1), (s2.host, s2.port, e2)]) := by
  simp only [AXFRClient.query, AXFRClient.queryGo, List.getD, List.length_cons,
    List.length_nil]
  norm_num
  rw [h1, h2, h3]

/-- The concrete attempt outcomes used to witness C7. -/
def c7Attempt : AXFRClient.Server → Except String (List Msg) :=
  fun s =>
    if s.host = "a" then .error "connect refused"
    else if s.host = "b" then .error "timed out"
    else .ok []

/-- Witness for C7 at three concrete servers. -/
theorem axfr_C7_failover_witness :
    AXFRClient.query c7Attempt [⟨"a", 53⟩, ⟨"b", 53⟩, ⟨"c", 53⟩] 6 =
      (some [], [("a", 53, "connect refused"), ("b", 53, "timed out")]) :=
  axfr_C7_failover c7Attempt ⟨"a", 53⟩ ⟨"b", 53⟩ ⟨"c", 53⟩
    "connect refused" "timed out" [] rfl rfl rfl

/-! ## AXFRValidator (`src/lib/axfr.js` lines 643-761)

`verifyZone(messages, keyMap)` flattens the records by owner, rejects
NSEC3, classifies delegations and glue, verifies every non-glue owner's
record sets (`dnssec.verifyMessage` abstracted to `verify`), and walks
the NSEC chain.  The owner map is insertion-ordered (`this.owners` is a
JS `Map`), embedded as an association list. -/

/-- An owner's record group (`{delegation, rrs}`). -/
structure Owner where
  delegation : Bool
  rrs : List RR
deriving DecidableEq, Repr

/-- The insertion-ordered owner map (`this.owners`). -/
abbrev OMap := List (Name × Owner)

/-- JS `Map.get` on the owner map. -/
def lookupOwner (m : OMap) (n : Name) : Option Owner :=
  match m.find? (fun p => decide (p.1 = n)) with
  | some p => some p.2
  | none => none

/-- A name rendered as a dotted fqdn string (for error messages). -/
def nameToString (n : Name) : String :=
  match n with
  | [] => "."
  | _ => String.join (n.map (fun l => l ++ "."))

/-- The mutation `verifyZone` applies to one owner entry for one record:
raise `delegation` for a non-origin NS, and append the record. -/
def updOwner (origin : Name) (o : Owner) (rr : RR) : Owner :=
  { delegation :=
      o.delegation || (decide (rr.type = tNS) && decide (rr.name ≠ origin)),
    rrs := o.rrs ++ [rr] }

/-- Get-or-create the record's owner entry and update it in place. -/
def addRR (origin : Name) (m : OMap) (rr : RR) : OMap :=
  if (m.find? (fun p => decide (p.1 = rr.name))).isSome then
    m.map (fun p => if p.1 = rr.name then (p.1, updOwner origin p.2 rr) else p)
  else m ++ [(rr.name, updOwner origin ⟨false, []⟩ rr)]

/-- One record of the flattening pass: track an NS target as a glue
candidate, reject NSEC3 outright, then group the record by owner. -/
def phase1RR (origin : Name) (acc : OMap × List Name) (rr : RR) :
    Except String (OMap × List Name) :=
  let mg := if rr.type = tNS then setAdd acc.2 rr.ns else acc.2
  if rr.type = tNSEC3 then .error "bogus: NSEC3 not supported"
  else .ok (addRR origin acc.1 rr, mg)

/-- The flattening pass of `verifyZone` over every message's answer
section (the nested source loops visit exactly the concatenation). -/
def phase1 (origin : Name) (msgs : List Msg) :
    Except String (OMap × List Name) :=
  foldE (phase1RR origin) ([], []) (msgs.map Msg.answer).flatten

/-- The loop of `verifyBitmap`: note whether NS is listed, and require
every listed type to be present at the owner. -/
def bitmapLoop (owner : Owner) (name : Name) :
    List Nat → Bool → Except String Bool
  | [], hasNS => .ok hasNS
  | t :: ts, hasNS =>
    let hasNS2 := hasNS || decide (t = tNS)
    if hasType owner.rrs t then bitmapLoop owner name ts hasNS2
    else .error ("bogus: could not find type " ++ toString t ++ " for " ++
      nameToString name)

/-- `verifyBitmap(name, owner, bitmap)`. -/
def verifyBitmap (name : Name) (owner : Owner) (bitmap : List Nat) :
    Except String Unit :=
  match bitmapLoop owner name bitmap false with
  | .error e => .error e
  | .ok hasNS =>
    if owner.delegation && !hasNS then
      .error ("bogus: claim to have a delegation yet no NS in NSEC " ++
        "bitmap for " ++ nameToString name)
    else .ok ()

/-- The loop of `verifyNSEC`: at the current name require exactly one
NSEC record, check its bitmap, follow `nextDomain`; a pointer into the
`seen` set ends the walk — success iff it returns to the origin.  The
source loop terminates because `seen` strictly grows and every visited
name must be an owner-map key; fuel `owners.length + 2` dominates that
bound. -/
def nsecGo (owners : OMap) (origin : Name) :
    Nat → Name → List Name → Except String (List Name)
  | 0, _, _ => .error "nsec walk ran out of fuel"
  | fuel + 1, name, seen =>
    match lookupOwner owners name with
    | none => .error "bogus: invalid data"
    | some owner =>
      match extractSet owner.rrs name tNSEC with
      | [rr] =>
        match verifyBitmap name owner rr.nsecTypes with
        | .error e => .error e
        | .ok _ =>
          if rr.nextDomain ∈ seen then
            if rr.nextDomain = origin then .ok seen
            else .error "bogus: bad NSEC chain"
          else nsecGo owners origin fuel rr.nextDomain (seen ++ [rr.nextDomain])
      | _ => .error ("bogus: NSEC must exist for " ++ nameToString name)

/-- `verifyNSEC()`: walk from the origin with `seen = {origin}`. -/
def verifyNSEC (owners : OMap) (origin : Name) : Except String (List Name) :=
  nsecGo owners origin (owners.length + 2) origin [origin]

/-- One owner of the verification pass: delegations have their NS set
excluded from the verification input; a glue candidate whose parent
(last label) is a delegation and whose records are address-only is
classified as glue and skipped; every other owner must verify. -/
def phase2Step (verify : List RR → Bool) (owners : OMap)
    (maybeGlue : List Name) (glue : List Name) (p : Name × Owner) :
    Except String (List Name) :=
  let ans := if p.2.delegation then filterSet p.2.rrs [tNS] else p.2.rrs
  let proceed : Except String (List Name) :=
    if verify ans then .ok glue
    else .error ("bogus: unable to validate zone data for " ++ nameToString p.1)
  if p.1 ∈ maybeGlue then
    match lookupOwner owners (fromNeg1 p.1) with
    | some parent =>
      if parent.delegation && (filterSet p.2.rrs [tA, tAAAA]).isEmpty then
        .ok (setAdd glue p.1)
      else proceed
    | none => proceed
  else proceed

/-- The verification pass of `verifyZone` over the whole owner map. -/
def phase2 (verify : List RR → Bool) (owners : OMap) (maybeGlue : List Name) :
    Except String (List Name) :=
  foldE (phase2Step verify owners maybeGlue) [] owners

/-- The Merge Result `verifyZone` returns. -/
structure VRes where
  names : OMap
  glue : List Name
  nsecChain : List Name
deriving DecidableEq, Repr

/-- `this.origin = '.'`. -/
def rootName : Name := []

/-- `verifyZone(messages, keyMap)`. -/
def verifyZone (msgs : List Msg) (verify : List RR → Bool) :
    Except String VRes :=
  match phase1 rootName msgs with
  | .error e => .error e
  | .ok (owners, maybeGlue) =>
    match phase2 verify owners maybeGlue with
    | .error e => .error e
    | .ok glue =>
      match verifyNSEC owners rootName with
      | .error e => .error e
      | .ok chain => .ok ⟨owners, glue, chain⟩

theorem phase1RR_nsec3 (origin : Name) (acc : OMap × List Name) (rr : RR)
    (h : rr.type = tNSEC3) :
    phase1RR origin acc rr = .error "bogus: NSEC3 not supported" := by
  simp [phase1RR, h, tNSEC3, tNS]

theorem phase1RR_ok (origin : Name) (acc : OMap × List Name) (rr : RR)
    (h : rr.type ≠ tNSEC3) :
    phase1RR origin acc rr =
      .ok (addRR origin acc.1 rr,
        if rr.type = tNS then setAdd acc.2 rr.ns else acc.2) := by
  simp [phase1RR, h]

theorem foldE_phase1RR_nsec3 (origin : Name) (rrs : List RR)
    (acc : OMap × List Name) (h : ∃ rr ∈ rrs, rr.type = tNSEC3) :
    foldE (phase1RR origin) acc rrs = .error "bogus: NSEC3 not supported" := by
  induction rrs generalizing acc with
  | nil => simp at h
  | cons rr rest ih =>
    obtain ⟨x, hx, hxt⟩ := h
    simp only [foldE]
    by_cases h0 : rr.type = tNSEC3
    · rw [phase1RR_nsec3 origin acc rr h0]
    · rw [phase1RR_ok origin acc rr h0]
      rcases List.mem_cons.mp hx with rfl | hx2
      · exact absurd hxt h0
      · exact ih _ ⟨x, hx2, hxt⟩

/-- Claim C4: any NSEC3 record anywhere in the message list makes
`verifyZone` fail immediately with the bogus NSEC3 classification, for
every verifier (i.e. regardless of the validity of everything else). -/
theorem axfr_C4_nsec3_rejected (msgs : List Msg) (verify : List RR → Bool)
    (h : ∃ rr ∈ (msgs.map Msg.answer).flatten, rr.type = tNSEC3) :
    verifyZone msgs verify = .error "bogus: NSEC3 not supported" := by
  unfold verifyZone phase1
  rw [foldE_phase1RR_nsec3 rootName _ _ h]

/-- The NSEC3 record used to witness C4. -/
def c4rr : RR := ⟨["evil"], tNSEC3, [], [], []⟩

/-- Witness for C4: a one-message zone holding a single NSEC3 record is
rejected even though the verifier accepts everything. -/
theorem axfr_C4_nsec3_rejected_witness :
    verifyZone [⟨0, [c4rr]⟩] (fun _ => true) =
      .error "bogus: NSEC3 not supported" :=
  axfr_C4_nsec3_rejected [⟨0, [c4rr]⟩] (fun _ => true) ⟨c4rr, by decide, rfl⟩

theorem mem_setAdd {α : Type} [DecidableEq α] (s : List α) (a b : α) :
    b ∈ setAdd s a ↔ b ∈ s ∨ b = a := by
  unfold setAdd
  split
  · rename_i h
    constructor
    · exact Or.inl
    · rintro (hb | rfl)
      · exact hb
      · exact h
  · simp [List.mem_append]

/-- The parent test the code applies to a glue candidate: the owner of
the candidate's last label exists and is a delegation. -/
def parentIsDelegation (owners : OMap) (n : Name) : Bool :=
  match lookupOwner owners (fromNeg1 n) with
  | some parent => parent.delegation
  | none => false

/-- The complete condition under which `verifyZone` classifies an owner
as glue and skips its verification. -/
def glueCond (owners : OMap) (maybeGlue : List Name) (n : Name)
    (o : Owner) : Bool :=
  decide (n ∈ maybeGlue) && parentIsDelegation owners n &&
    (filterSet o.rrs [tA, tAAAA]).isEmpty

theorem phase2Step_glue (verify : List RR → Bool) (owners : OMap)
    (mg : List Name) (glue : List Name) (n : Name) (o : Owner)
    (hcond : glueCond owners mg n o = true) :
    phase2Step verify owners mg glue (n, o) = .ok (setAdd glue n) := by
  unfold glueCond at hcond
  simp only [Bool.and_eq_true, decide_eq_true_eq] at hcond
  obtain ⟨⟨hmem, hpar⟩, hempty⟩ := hcond
  unfold phase2Step
  simp only [if_pos hmem]
  unfold parentIsDelegation at hpar
  cases hlook : lookupOwner owners (fromNeg1 n) with
  | none => rw [hlook] at hpar; exact Bool.noConfusion hpar
  | some parent =>
    rw [hlook] at hpar
    simp only [] at hpar
    simp [hpar, hempty]

theorem phase2Step_nonglue (verify : List RR → Bool) (owners : OMap)
    (mg : List Name) (glue : List Name) (n : Name) (o : Owner)
    (hcond : glueCond owners mg n o = false) :
    phase2Step verify owners mg glue (n, o) =
      (if verify (if o.delegation then filterSet o.rrs [tNS] else o.rrs)
       then .ok glue
       else .error ("bogus: unable to validate zone data for " ++
         nameToString n)) := by
  by_cases hmem : n ∈ mg
  · cases hlook : lookupOwner owners (fromNeg1 n) with
    | none => simp [phase2Step, hmem, hlook]
    | some parent =>
      have hcond2 :
          (parent.delegation && (filterSet o.rrs [tA, tAAAA]).isEmpty)
            = false := by
        unfold glueCond parentIsDelegation at hcond
        rw [hlook] at hcond
        simpa [hmem] using hcond
      simp [phase2Step, hmem, hlook, hcond2]
  · simp [phase2Step, hmem]

theorem phase2Step_nonglue_ok (verify : List RR → Bool) (owners : OMap)
    (mg : List Name) (glue : List Name) (n : Name) (o : Owner)
    (hcond : glueCond owners mg n o = false)
    (hv : verify (if o.delegation then filterSet o.rrs [tNS] else o.rrs)
      = true) :
    phase2Step verify owners mg glue (n, o) = .ok glue := by
  rw [phase2Step_nonglue verify owners mg glue n o hcond, if_pos hv]

theorem phase2Step_nonglue_err (verify : List RR → Bool) (owners : OMap)
    (mg : List Name) (glue : List Name) (n : Name) (o : Owner)
    (hcond : glueCond owners mg n o = false)
    (hv : ¬ verify (if o.delegation then filterSet o.rrs [tNS] else o.rrs)
      = true) :
    phase2Step verify owners mg glue (n, o) =
      .error ("bogus: unable to validate zone data for " ++ nameToString n) := by
  rw [phase2Step_nonglue verify owners mg glue n o hcond, if_neg hv]

theorem foldE_phase2_mem (verify : List RR → Bool) (owners : OMap)
    (mg : List Name) :
    ∀ (l : List (Name × Owner)) (glue g : List Name),
      foldE (phase2Step verify owners mg) glue l = .ok g →
      ∀ n, n ∈ g ↔
        (n ∈ glue ∨ ∃ o, (n, o) ∈ l ∧ glueCond owners mg n o = true) := by
  intro l
  induction l with
  | nil =>
    intro glue g h n
    simp only [foldE, Except.ok.injEq] at h
    subst h
    simp
  | cons p rest ih =>
    intro glue g h n
    obtain ⟨m, o⟩ := p
    simp only [foldE] at h
    by_cases hcond : glueCond owners mg m o = true
    · rw [phase2Step_glue verify owners mg glue m o hcond] at h
      simp only [] at h
      rw [ih (setAdd glue m) g h n, mem_setAdd]
      constructor
      · rintro ((hg | rfl) | ⟨o2, ho2, hc⟩)
        · exact Or.inl hg
        · exact Or.inr ⟨o, List.mem_cons_self _ _, hcond⟩
        · exact Or.inr ⟨o2, List.mem_cons_of_mem _ ho2, hc⟩
      · rintro (hg | ⟨o2, ho2, hc⟩)
        · exact Or.inl (Or.inl hg)
        · rcases List.mem_cons.mp ho2 with heq | hmem2
          · injection heq with h1 h2
            subst h1
            exact Or.inl (Or.inr rfl)
          · exact Or.inr ⟨o2, hmem2, hc⟩
    · have hcondf : glueCond owners mg m o = false := by
        simpa using hcond
      by_cases hv : verify (if o.delegation then filterSet o.rrs [tNS]
          else o.rrs) = true
      · rw [phase2Step_nonglue_ok verify owners mg glue m o hcondf hv] at h
        simp only [] at h
        rw [ih glue g h n]
        constructor
        · rintro (hg | ⟨o2, ho2, hc⟩)
          · exact Or.inl hg
          · exact Or.inr ⟨o2, List.mem_cons_of_mem _ ho2, hc⟩
        · rintro (hg | ⟨o2, ho2, hc⟩)
          · exact Or.inl hg
          · rcases List.mem_cons.mp ho2 with heq | hmem2
            · injection heq with h1 h2
              subst h1
              subst h2
              exact absurd hc (by simpa using hcondf)
            · exact Or.inr ⟨o2, hmem2, hc⟩
      · rw [phase2Step_nonglue_err verify owners mg glue m o hcondf hv] at h
        exact Except.noConfusion h

theorem foldE_phase2_verify (verify : List RR → Bool) (owners : OMap)
    (mg : List Name) :
    ∀ (l : List (Name × Owner)) (glue g : List Name),
      foldE (phase2Step verify owners mg) glue l = .ok g →
      ∀ n o, (n, o) ∈ l → glueCond owners mg n o = false →
        verify (if o.delegation then filterSet o.rrs [tNS] else o.rrs)
          = true := by
  intro l
  induction l with
  | nil => intro glue g h n o hmem; simp at hmem
  | cons p rest ih =>
    intro glue g h n o hmem hcond
    obtain ⟨m, o2⟩ := p
    simp only [foldE] at h
    by_cases hcond2 : glueCond owners mg m o2 = true
    · rw [phase2Step_glue verify owners mg glue m o2 hcond2] at h
      simp only [] at h
      rcases List.mem_cons.mp hmem with heq | hmem2
      · injection heq with h1 h2
        subst h1
        subst h2
        exact absurd hcond2 (by simp [hcond])
      · exact ih (setAdd glue m) g h n o hmem2 hcond
    · have hcondf : glueCond owners mg m o2 = false := by simpa using hcond2
      by_cases hv : verify (if o2.delegation then filterSet o2.rrs [tNS]
          else o2.rrs) = true
      · rw [phase2Step_nonglue_ok verify owners mg glue m o2 hcondf hv] at h
        simp only [] at h
        rcases List.mem_cons.mp hmem with heq | hmem2
        · injection heq with h1 h2
          subst h1
          subst h2
          exact hv
        · exact ih glue g h n o hmem2 hcond
      · rw [phase2Step_nonglue_err verify owners mg glue m o2 hcondf hv] at h
        exact Except.noConfusion h

theorem lookupOwner_mem (m : OMap) (n : Name) (o : Owner)
    (h : lookupOwner m n = some o) : (n, o) ∈ m := by
  unfold lookupOwner at h
  cases hf : m.find? (fun p => decide (p.1 = n)) with
  | none => rw [hf] at h; exact Option.noConfusion h
  | some p =>
    rw [hf] at h
    simp only [Option.some.injEq] at h
    have hmem := List.mem_of_find?_eq_some hf
    have hp := List.find?_some hf
    simp only [decide_eq_true_eq] at hp
    subst h
    rw [← hp]
    exact hmem

theorem mem_unique_of_keys_nodup (m : OMap)
    (hnd : (m.map Prod.fst).Nodup) (n : Name) (o o2 : Owner)
    (h1 : (n, o) ∈ m) (h2 : (n, o2) ∈ m) : o = o2 := by
  induction m with
  | nil => simp at h1
  | cons p rest ih =>
    simp only [List.map_cons, List.nodup_cons] at hnd
    rcases List.mem_cons.mp h1 with he1 | hm1 <;>
      rcases List.mem_cons.mp h2 with he2 | hm2
    · rw [← he2] at he1
      exact congrArg Prod.snd he1
    · exfalso
      apply hnd.1
      rw [← he1]
      exact List.mem_map.mpr ⟨(n, o2), hm2, rfl⟩
    · exfalso
      apply hnd.1
      rw [← he2]
      exact List.mem_map.mpr ⟨(n, o), hm1, rfl⟩
    · exact ih hnd.2 hm1 hm2

theorem map_if_keys (m : OMap) (f : Owner → RR → Owner) (rr : RR) :
    ((m.map (fun p => if p.1 = rr.name then (p.1, f p.2 rr) else p)).map
      Prod.fst) = m.map Prod.fst := by
  induction m with
  | nil => rfl
  | cons p rest ih =>
    obtain ⟨a, b⟩ := p
    by_cases h : a = rr.name <;> simp [h, ih]

theorem addRR_keys_nodup (origin : Name) (m : OMap) (rr : RR)
    (h : (m.map Prod.fst).Nodup) :
    ((addRR origin m rr).map Prod.fst).Nodup := by
  unfold addRR
  split
  · rw [map_if_keys m (fun o r => updOwner origin o r) rr]
    exact h
  · rename_i hfind
    rw [List.map_append]
    rw [List.nodup_append]
    refine ⟨h, by simp, ?_⟩
    intro a ha hb
    simp only [List.map_cons, List.map_nil, List.mem_singleton] at hb
    subst hb
    rw [Option.not_isSome_iff_eq_none, List.find?_eq_none] at hfind
    obtain ⟨p, hp, hfst⟩ := List.mem_map.mp ha
    exact hfind p hp (by simpa using hfst)

theorem foldE_phase1_keys_nodup (origin : Name) :
    ∀ (rrs : List RR) (acc : OMap × List Name) (ow : OMap) (mg : List Name),
      (acc.1.map Prod.fst).Nodup →
      foldE (phase1RR origin) acc rrs = .ok (ow, mg) →
      ((ow.map Prod.fst).Nodup) := by
  intro rrs
  induction rrs with
  | nil =>
    intro acc ow mg hnd h
    simp only [foldE, Except.ok.injEq] at h
    subst h
    exact hnd
  | cons rr rest ih =>
    intro acc ow mg hnd h
    simp only [foldE] at h
    by_cases h0 : rr.type = tNSEC3
    · rw [phase1RR_nsec3 origin acc rr h0] at h
      exact Except.noConfusion h
    · rw [phase1RR_ok origin acc rr h0] at h
      simp only [] at h
      exact ih _ ow mg (addRR_keys_nodup origin acc.1 rr hnd) h

/-- The glue-candidate set `verifyZone` collects during flattening: all
NS-record targets, in first-appearance order. -/
def glueCandidates (msgs : List Msg) : List Name :=
  ((msgs.map Msg.answer).flatten).foldl
    (fun s rr => if rr.type = tNS then setAdd s rr.ns else s) []

theorem foldE_phase1_mg (origin : Name) :
    ∀ (rrs : List RR) (acc : OMap × List Name) (ow : OMap) (mg : List Name),
      foldE (phase1RR origin) acc rrs = .ok (ow, mg) →
      mg = rrs.foldl
        (fun s rr => if rr.type = tNS then setAdd s rr.ns else s) acc.2 := by
  intro rrs
  induction rrs with
  | nil =>
    intro acc ow mg h
    simp only [foldE, Except.ok.injEq] at h
    subst h
    simp
  | cons rr rest ih =>
    intro acc ow mg h
    simp only [foldE] at h
    by_cases h0 : rr.type = tNSEC3
    · rw [phase1RR_nsec3 origin acc rr h0] at h
      exact Except.noConfusion h
    · rw [phase1RR_ok origin acc rr h0] at h
      simp only [] at h
      rw [List.foldl_cons]
      exact ih _ ow mg h

theorem phase1_keys_nodup (origin : Name) (msgs : List Msg) (ow : OMap)
    (mg : List Name) (h : phase1 origin msgs = .ok (ow, mg)) :
    ((ow.map Prod.fst).Nodup) :=
  foldE_phase1_keys_nodup origin _ ([], []) ow mg (by simp) h

theorem phase1_mg_eq (msgs : List Msg) (ow : OMap) (mg : List Name)
    (h : phase1 rootName msgs = .ok (ow, mg)) :
    mg = glueCandidates msgs :=
  foldE_phase1_mg rootName _ ([], []) ow mg h

theorem verifyZone_ok_parts (msgs : List Msg) (verify : List RR → Bool)
    (res : VRes) (h : verifyZone msgs verify = .ok res) :
    ∃ mg, phase1 rootName msgs = .ok (res.names, mg) ∧
      phase2 verify res.names mg = .ok res.glue ∧
      verifyNSEC res.names rootName = .ok res.nsecChain := by
  unfold verifyZone at h
  cases h1 : phase1 rootName msgs with
  | error e => rw [h1] at h; exact Except.noConfusion h
  | ok pr =>
    obtain ⟨owners, mg⟩ := pr
    rw [h1] at h
    simp only [] at h
    cases h2 : phase2 verify owners mg with
    | error e => rw [h2] at h; exact Except.noConfusion h
    | ok glue =>
      rw [h2] at h
      simp only [] at h
      cases h3 : verifyNSEC owners rootName with
      | error e => rw [h3] at h; exact Except.noConfusion h
      | ok chain =>
        rw [h3] at h
        simp only [Except.ok.injEq] at h
        subst h
        exact ⟨mg, rfl, h2, h3⟩

/-- Claim C5 (amended): for every owner of a successfully verified zone,
the owner is classified as glue (and thereby skips signature
verification) if and only if it was referenced as an NS target, the
owner of its last label alone — the TLD, not the name obtained by
stripping only the leftmost label as the claim stated — is a
delegation, and its records are exclusively of address type (A/AAAA);
every owner not classified as glue passed the verifier on its
delegation-filtered record set. -/
theorem axfr_C5_glue_characterization (msgs : List Msg)
    (verify : List RR → Bool) (res : VRes) (n : Name) (o : Owner)
    (hres : verifyZone msgs verify = .ok res)
    (ho : lookupOwner res.names n = some o) :
    (n ∈ res.glue ↔
      (n ∈ glueCandidates msgs ∧ parentIsDelegation res.names n = true ∧
        filterSet o.rrs [tA, tAAAA] = [])) ∧
    (n ∉ res.glue →
      verify (if o.delegation then filterSet o.rrs [tNS] else o.rrs)
        = true) := by
  obtain ⟨mg, h1, h2, _⟩ := verifyZone_ok_parts msgs verify res hres
  have hnd := phase1_keys_nodup rootName msgs res.names mg h1
  have hmg := phase1_mg_eq msgs res.names mg h1
  have hmem := lookupOwner_mem res.names n o ho
  have hiff := foldE_phase2_mem verify res.names mg res.names [] res.glue h2 n
  have hver := foldE_phase2_verify verify res.names mg res.names [] res.glue h2
  subst hmg
  constructor
  · rw [hiff]
    constructor
    · rintro (hfalse | ⟨o2, ho2, hc⟩)
      · simp at hfalse
      · have : o2 = o := mem_unique_of_keys_nodup res.names hnd n o2 o ho2 hmem
        subst this
        unfold glueCond at hc
        simp only [Bool.and_eq_true, decide_eq_true_eq,
          List.isEmpty_iff] at hc
        exact ⟨hc.1.1, hc.1.2, hc.2⟩
    · rintro ⟨hg, hpar, hempty⟩
      refine Or.inr ⟨o, hmem, ?_⟩
      unfold glueCond
      simp [hg, hpar, hempty]
  · intro hnotglue
    apply hver n o hmem
    by_contra hc
    rw [Bool.not_eq_false] at hc
    apply hnotglue
    rw [hiff]
    exact Or.inr ⟨o, hmem, hc⟩

/-- The root NSEC of the C5 zone: next owner `example.`, bitmap
`[NSEC]`. -/
def c5rr1 : RR := ⟨[], tNSEC, [], ["example"], [tNSEC]⟩

/-- The delegation NS of `example.`, targeting `ns1.sub.example.`. -/
def c5rr2 : RR := ⟨["example"], tNS, ["ns1", "sub", "example"], [], []⟩

/-- The NSEC of `example.`: next owner `.`, bitmap `[NS, NSEC]`. -/
def c5rr3 : RR := ⟨["example"], tNSEC, [], [], [tNS, tNSEC]⟩

/-- The address record of the glue candidate `ns1.sub.example.`. -/
def c5rr4 : RR := ⟨["ns1", "sub", "example"], tA, [], [], []⟩

/-- The C5 zone: one message holding the four records above. -/
def c5msgs : List Msg := [⟨0, [c5rr1, c5rr2, c5rr3, c5rr4]⟩]

/-- The Merge Result `verifyZone` computes for `c5msgs`. -/
def c5res : VRes :=
  { names := [([], ⟨false, [c5rr1]⟩),
              (["example"], ⟨true, [c5rr2, c5rr3]⟩),
              (["ns1", "sub", "example"], ⟨false, [c5rr4]⟩)],
    glue := [["ns1", "sub", "example"]],
    nsecChain := [[], ["example"]] }

/-- Witness for C5 (amended): on the concrete zone, the characterization
instantiates to show `ns1.sub.example.` is classified as glue. -/
theorem axfr_C5_glue_characterization_witness :
    ["ns1", "sub", "example"] ∈ c5res.glue :=
  ((axfr_C5_glue_characterization c5msgs (fun _ => true) c5res
      ["ns1", "sub", "example"] ⟨false, [c5rr4]⟩ rfl rfl).1).mpr
    ⟨by decide, by decide, by decide⟩

/-- Counterexample for C5 as stated: `verifyZone` accepts the C5 zone
and classifies the three-label owner `ns1.sub.example.` as glue, yet
the owner obtained by stripping its leftmost label, `sub.example.`, is
not an owner at all (hence not a delegation) — the code instead tests
the owner of the last label alone (`example.`). -/
theorem axfr_C5_counterexample :
    verifyZone c5msgs (fun _ => true) = .ok c5res ∧
    ["ns1", "sub", "example"] ∈ c5res.glue ∧
    (["ns1", "sub", "example"] : Name).tail = ["sub", "example"] ∧
    lookupOwner c5res.names ["sub", "example"] = none :=
  ⟨rfl, by decide, rfl, rfl⟩

/-! ### The NSEC chain walk (claim C2)

The executable `verifyNSEC` is compared against a declarative chain
predicate written from the spec's wording. -/

/-- The NSEC record the walk uses at owner `n`: defined exactly when the
owner exists and `extractSet` yields a single NSEC record there. -/
def theNsec (owners : OMap) (n : Name) : Option RR :=
  match lookupOwner owners n with
  | some owner =>
    match extractSet owner.rrs n tNSEC with
    | [rr] => some rr
    | _ => none
  | none => none

/-- The "next owner" pointer at `n`, when defined. -/
def nsecNext (owners : OMap) (n : Name) : Option Name :=
  (theNsec owners n).map RR.nextDomain

/-- Written from the spec's wording: at each visited owner there is
exactly one non-existence record, every type listed in its bitmap has a
matching record at that owner, and NS is listed when the owner is a
delegation. -/
def specNsecNodeOK (owners : OMap) (n : Name) : Prop :=
  ∃ owner rr, lookupOwner owners n = some owner ∧
    extractSet owner.rrs n tNSEC = [rr] ∧
    (∀ t ∈ rr.nsecTypes, hasType owner.rrs t = true) ∧
    (owner.delegation = true → tNS ∈ rr.nsecTypes)

/-- Written from the spec's wording: the visited-name list starts at the
origin, visits no owner twice, every visited owner satisfies the node
condition, and the "next owner" pointers link consecutive visited names
and finally point back to the origin. -/
def SpecNsecChain (owners : OMap) (origin : Name) (seen : List Name) : Prop :=
  seen.head? = some origin ∧ seen.Nodup ∧
  (∀ n ∈ seen, specNsecNodeOK owners n) ∧
  List.Chain' (fun a b => nsecNext owners a = some b) (seen ++ [origin])

theorem decide_tNS_mem_cons (t : Nat) (ts : List Nat) :
    decide (tNS ∈ t :: ts) = (decide (t = tNS) || decide (tNS ∈ ts)) := by
  by_cases h1 : t = tNS <;> by_cases h2 : tNS ∈ ts <;>
    simp [h1, h2, List.mem_cons, eq_comm]

theorem bitmapLoop_ok_of (owner : Owner) (name : Name) :
    ∀ (bm : List Nat) (b : Bool),
      (∀ t ∈ bm, hasType owner.rrs t = true) →
      bitmapLoop owner name bm b = .ok (b || decide (tNS ∈ bm)) := by
  intro bm
  induction bm with
  | nil => intro b _; simp [bitmapLoop]
  | cons t ts ih =>
    intro b hall
    have ht : hasType owner.rrs t = true := hall t (by simp)
    simp only [bitmapLoop, ht, if_pos]
    rw [ih (b || decide (t = tNS)) (fun x hx => hall x (by simp [hx]))]
    rw [decide_tNS_mem_cons, ← Bool.or_assoc]

theorem bitmapLoop_ok_inv (owner : Owner) (name : Name) :
    ∀ (bm : List Nat) (b r : Bool),
      bitmapLoop owner name bm b = .ok r →
      (∀ t ∈ bm, hasType owner.rrs t = true) ∧
        r = (b || decide (tNS ∈ bm)) := by
  intro bm
  induction bm with
  | nil =>
    intro b r h
    simp only [bitmapLoop, Except.ok.injEq] at h
    subst h
    simp
  | cons t ts ih =>
    intro b r h
    simp only [bitmapLoop] at h
    by_cases ht : hasType owner.rrs t = true
    · rw [if_pos ht] at h
      obtain ⟨hall, hr⟩ := ih (b || decide (t = tNS)) r h
      refine ⟨fun x hx => ?_, ?_⟩
      · rcases List.mem_cons.mp hx with rfl | hx2
        · exact ht
        · exact hall x hx2
      · rw [hr, decide_tNS_mem_cons, Bool.or_assoc]
    · rw [if_neg ht] at h
      exact Except.noConfusion h

theorem verifyBitmap_ok_iff (name : Name) (owner : Owner) (bm : List Nat) :
    verifyBitmap name owner bm = .ok () ↔
      ((∀ t ∈ bm, hasType owner.rrs t = true) ∧
       (owner.delegation = true → tNS ∈ bm)) := by
  unfold verifyBitmap
  constructor
  · intro h
    cases hb : bitmapLoop owner name bm false with
    | error e => rw [hb] at h; exact Except.noConfusion h
    | ok r =>
      rw [hb] at h
      simp only [] at h
      obtain ⟨hall, hr⟩ := bitmapLoop_ok_inv owner name bm false r hb
      refine ⟨hall, fun hdel => ?_⟩
      by_contra hns
      have hrf : r = false := by rw [hr]; simp [hns]
      rw [hrf, hdel] at h
      simp at h
  · rintro ⟨hall, hdel⟩
    rw [bitmapLoop_ok_of owner name bm false hall]
    simp only []
    by_cases hd : owner.delegation = true
    · have hns : tNS ∈ bm := hdel hd
      simp [hd, hns]
    · have hdf : owner.delegation = false := by simpa using hd
      simp [hdf]

/-- The loop invariant of the executable walk: `seen` is the visit list
with the current `name` last, all earlier visited owners already
validated, linked by next pointers, starting at the origin, without
repeats. -/
def GoInv (owners : OMap) (origin name : Name) (seen : List Name) : Prop :=
  (∃ pre, seen = pre ++ [name] ∧ ∀ m ∈ pre, specNsecNodeOK owners m) ∧
  seen.head? = some origin ∧ seen.Nodup ∧
  List.Chain' (fun a b => nsecNext owners a = some b) seen

theorem head?_append_single {α : Type} (l : List α) (a b : α)
    (h : l.head? = some a) : (l ++ [b]).head? = some a := by
  cases l with
  | nil => exact Option.noConfusion h
  | cons x t => simpa using h

theorem nsecGo_ok_spec (owners : OMap) (origin : Name) :
    ∀ (fuel : Nat) (name : Name) (seen out : List Name),
      GoInv owners origin name seen →
      nsecGo owners origin fuel name seen = .ok out →
      SpecNsecChain owners origin out := by
  intro fuel
  induction fuel with
  | zero => intro name seen out _ h; exact Except.noConfusion h
  | succ fuel ih =>
    intro name seen out hinv h
    obtain ⟨⟨pre, hpre, hprenodes⟩, hhead, hnd, hchain⟩ := hinv
    simp only [nsecGo] at h
    cases hl : lookupOwner owners name with
    | none => rw [hl] at h; exact Except.noConfusion h
    | some owner =>
      rw [hl] at h
      simp only [] at h
      cases he : extractSet owner.rrs name tNSEC with
      | nil => rw [he] at h; exact Except.noConfusion h
      | cons rr rest =>
        cases rest with
        | cons r2 rest2 => rw [he] at h; exact Except.noConfusion h
        | nil =>
          rw [he] at h
          simp only [] at h
          cases hb : verifyBitmap name owner rr.nsecTypes with
          | error e => rw [hb] at h; exact Except.noConfusion h
          | ok u =>
            cases u
            rw [hb] at h
            simp only [] at h
            have hnode : specNsecNodeOK owners name := by
              obtain ⟨hall, hdel⟩ :=
                (verifyBitmap_ok_iff name owner rr.nsecTypes).mp hb
              exact ⟨owner, rr, hl, he, hall, hdel⟩
            have hnext : nsecNext owners name = some rr.nextDomain := by
              unfold nsecNext theNsec
              rw [hl]
              simp only []
              rw [he]
              rfl
            by_cases hmem : rr.nextDomain ∈ seen
            · rw [if_pos hmem] at h
              by_cases horg : rr.nextDomain = origin
              · rw [if_pos horg] at h
                simp only [Except.ok.injEq] at h
                subst h
                refine ⟨hhead, hnd, ?_, ?_⟩
                · intro m hm
                  rw [hpre] at hm
                  rcases List.mem_append.mp hm with hm1 | hm2
                  · exact hprenodes m hm1
                  · rw [List.mem_singleton] at hm2
                    subst hm2
                    exact hnode
                · rw [List.chain'_append]
                  refine ⟨hchain, List.chain'_singleton _, ?_⟩
                  intro x hx y hy
                  simp only [List.head?_cons, Option.mem_def,
                    Option.some.injEq] at hy
                  subst hy
                  rw [hpre, List.getLast?_concat, Option.mem_def,
                    Option.some.injEq] at hx
                  subst hx
                  rw [hnext, horg]
              · rw [if_neg horg] at h
                exact Except.noConfusion h
            · rw [if_neg hmem] at h
              refine ih rr.nextDomain (seen ++ [rr.nextDomain]) out ?_ h
              refine ⟨⟨seen, rfl, ?_⟩,
                head?_append_single seen origin rr.nextDomain hhead, ?_, ?_⟩
              · intro m hm
                rw [hpre] at hm
                rcases List.mem_append.mp hm with hm1 | hm2
                · exact hprenodes m hm1
                · rw [List.mem_singleton] at hm2
                  subst hm2
                  exact hnode
              · rw [List.nodup_append]
                refine ⟨hnd, by simp, ?_⟩
                intro a ha hb2
                rw [List.mem_singleton] at hb2
                subst hb2
                exact hmem ha
              · rw [List.chain'_append]
                refine ⟨hchain, List.chain'_singleton _, ?_⟩
                intro x hx y hy
                simp only [List.head?_cons, Option.mem_def,
                  Option.some.injEq] at hy
                subst hy
                rw [hpre, List.getLast?_concat, Option.mem_def,
                  Option.some.injEq] at hx
                subst hx
                exact hnext

theorem nsecGo_step (owners : OMap) (origin : Name) (fuel : Nat)
    (name : Name) (seen : List Name) (owner : Owner) (rr : RR)
    (hl : lookupOwner owners name = some owner)
    (he : extractSet owner.rrs name tNSEC = [rr])
    (hb : verifyBitmap name owner rr.nsecTypes = .ok ()) :
    nsecGo owners origin (fuel + 1) name seen =
      (if rr.nextDomain ∈ seen then
        (if rr.nextDomain = origin then .ok seen
         else .error "bogus: bad NSEC chain")
       else nsecGo owners origin fuel rr.nextDomain
         (seen ++ [rr.nextDomain])) := by
  simp only [nsecGo]
  rw [hl]
  simp only []
  rw [he]
  simp only []
  rw [hb]

theorem nsecGo_spec_ok (owners : OMap) (origin : Name) (seen : List Name)
    (hnodes : ∀ m ∈ seen, specNsecNodeOK owners m) (hnd : seen.Nodup)
    (hhead : seen.head? = some origin) :
    ∀ (suf pre : List Name) (cur : Name) (fuel : Nat),
      seen = pre ++ cur :: suf →
      List.Chain' (fun a b => nsecNext owners a = some b)
        (cur :: (suf ++ [origin])) →
      suf.length + 1 ≤ fuel →
      nsecGo owners origin fuel cur (pre ++ [cur]) = .ok seen := by
  intro suf
  induction suf with
  | nil =>
    intro pre cur fuel hsplit hchain hfuel
    cases fuel with
    | zero => omega
    | succ f =>
      have hcur : specNsecNodeOK owners cur := hnodes cur (by rw [hsplit]; simp)
      obtain ⟨owner, rr, hl, he, hall, hdel⟩ := hcur
      have hb : verifyBitmap cur owner rr.nsecTypes = .ok () :=
        (verifyBitmap_ok_iff cur owner rr.nsecTypes).mpr ⟨hall, hdel⟩
      rw [nsecGo_step owners origin f cur (pre ++ [cur]) owner rr hl he hb]
      simp only [List.nil_append] at hchain
      obtain ⟨hlink, _⟩ := List.chain'_cons.mp hchain
      have hnextval : nsecNext owners cur = some rr.nextDomain := by
        unfold nsecNext theNsec
        rw [hl]
        simp only []
        rw [he]
        rfl
      have hnd2 : rr.nextDomain = origin := by
        rw [hnextval] at hlink
        exact Option.some.inj hlink
      have hmem : rr.nextDomain ∈ pre ++ [cur] := by
        rw [hnd2]
        have hh : (pre ++ [cur]).head? = some origin := by rw [← hsplit]; exact hhead
        exact List.mem_of_mem_head? hh
      rw [if_pos hmem, if_pos hnd2, hsplit]
  | cons nxt suf ih =>
    intro pre cur fuel hsplit hchain hfuel
    cases fuel with
    | zero => simp only [List.length_cons] at hfuel; omega
    | succ f =>
      have hcur : specNsecNodeOK owners cur := hnodes cur (by rw [hsplit]; simp)
      obtain ⟨owner, rr, hl, he, hall, hdel⟩ := hcur
      have hb : verifyBitmap cur owner rr.nsecTypes = .ok () :=
        (verifyBitmap_ok_iff cur owner rr.nsecTypes).mpr ⟨hall, hdel⟩
      rw [nsecGo_step owners origin f cur (pre ++ [cur]) owner rr hl he hb]
      simp only [List.cons_append] at hchain
      obtain ⟨hlink, hchain2⟩ := List.chain'_cons.mp hchain
      have hnextval : nsecNext owners cur = some rr.nextDomain := by
        unfold nsecNext theNsec
        rw [hl]
        simp only []
        rw [he]
        rfl
      have hnd2 : rr.nextDomain = nxt := by
        rw [hnextval] at hlink
        exact Option.some.inj hlink
      have hnotmem : rr.nextDomain ∉ pre ++ [cur] := by
        rw [hnd2]
        intro hmem2
        rw [hsplit, List.nodup_append] at hnd
        obtain ⟨_, hnd2c, hdisj⟩ := hnd
        rcases List.mem_append.mp hmem2 with hp | hc
        · exact (hdisj hp) (by simp)
        · rw [List.mem_singleton] at hc
          rw [List.nodup_cons] at hnd2c
          exact hnd2c.1 (by rw [← hc]; simp)
      rw [if_neg hnotmem, hnd2]
      apply ih (pre ++ [cur]) nxt f ?_ ?_ ?_
      · rw [hsplit]
        simp
      · exact hchain2
      · simp only [List.length_cons] at hfuel
        omega

/-- The number of owner-map entries whose key has not been visited yet:
the measure that bounds the walk's remaining iterations. -/
def keysNotIn (owners : OMap) (seen : List Name) : Nat :=
  (owners.filter (fun p => decide (p.1 ∉ seen))).length

theorem keysNotIn_le_length (owners : OMap) (seen : List Name) :
    keysNotIn owners seen ≤ owners.length :=
  List.length_filter_le _ _

theorem filter_length_mono {α : Type} (l : List α) (p q : α → Bool)
    (himp : ∀ a, q a = true → p a = true) :
    (l.filter q).length ≤ (l.filter p).length := by
  induction l with
  | nil => simp
  | cons a t ih =>
    simp only [List.filter_cons]
    by_cases hq : q a = true
    · simp only [hq, himp a hq, if_pos, List.length_cons]
      omega
    · simp only [Bool.not_eq_true] at hq
      rw [hq]
      by_cases hp : p a = true
      · simp only [hp, if_pos, if_neg, List.length_cons]
        simp only [Bool.false_eq_true, if_false]
        omega
      · simp only [Bool.not_eq_true] at hp
        rw [hp]
        simpa using ih

theorem filter_length_lt {α : Type} (l : List α) (p q : α → Bool)
    (himp : ∀ a, q a = true → p a = true) (x : α) (hx : x ∈ l)
    (hpx : p x = true) (hqx : q x = false) :
    (l.filter q).length < (l.filter p).length := by
  induction l with
  | nil => simp at hx
  | cons a t ih =>
    simp only [List.filter_cons]
    rcases List.mem_cons.mp hx with rfl | hxt
    · rw [hpx, hqx]
      simp only [if_pos, Bool.false_eq_true, if_false, List.length_cons]
      have := filter_length_mono t p q himp
      omega
    · by_cases hq : q a = true
      · simp only [hq, himp a hq, if_pos, List.length_cons]
        have := ih hxt
        omega
      · simp only [Bool.not_eq_true] at hq
        rw [hq]
        simp only [Bool.false_eq_true, if_false]
        by_cases hp : p a = true
        · simp only [hp, if_pos, List.length_cons]
          have := ih hxt
          omega
        · simp only [Bool.not_eq_true] at hp
          rw [hp]
          simp only [Bool.false_eq_true, if_false]
          exact ih hxt

theorem keysNotIn_lt (owners : OMap) (seen : List Name) (next : Name)
    (hkey : next ∈ owners.map Prod.fst) (hnot : next ∉ seen) :
    keysNotIn owners (seen ++ [next]) < keysNotIn owners seen := by
  obtain ⟨x, hxmem, hxfst⟩ := List.mem_map.mp hkey
  refine filter_length_lt owners _ _ ?_ x hxmem ?_ ?_
  · intro a ha
    simp only [decide_eq_true_eq] at ha ⊢
    exact fun hc => ha (List.mem_append.mpr (Or.inl hc))
  · simp only [decide_eq_true_eq]
    rw [hxfst]
    exact hnot
  · simp only [decide_eq_false_iff_not, Decidable.not_not]
    rw [hxfst]
    exact List.mem_append.mpr (Or.inr (by simp))

theorem lookupOwner_eq_none (owners : OMap) (n : Name)
    (h : n ∉ owners.map Prod.fst) : lookupOwner owners n = none := by
  unfold lookupOwner
  cases hf : owners.find? (fun p => decide (p.1 = n)) with
  | none => rfl
  | some p =>
    exfalso
    have hp := List.find?_some hf
    simp only [decide_eq_true_eq] at hp
    exact h (List.mem_map.mpr ⟨p, List.mem_of_find?_eq_some hf, hp⟩)

theorem ne_fuel_of_len (e : String) (h : 27 ≤ e.length) :
    e ≠ "nsec walk ran out of fuel" := by
  intro hc
  rw [hc] at h
  have h25 : ("nsec walk ran out of fuel" : String).length = 25 := rfl
  omega

theorem bitmapLoop_error_len (owner : Owner) (name : Name) :
    ∀ (bm : List Nat) (b : Bool) (e : String),
      bitmapLoop owner name bm b = .error e → 27 ≤ e.length := by
  intro bm
  induction bm with
  | nil =>
    intro b e h
    simp only [bitmapLoop] at h
    exact Except.noConfusion h
  | cons t ts ih =>
    intro b e h
    simp only [bitmapLoop] at h
    by_cases ht : hasType owner.rrs t = true
    · rw [if_pos ht] at h
      exact ih _ e h
    · rw [if_neg ht] at h
      simp only [Except.error.injEq] at h
      subst h
      rw [String.length_append, String.length_append, String.length_append]
      have h27 : 27 ≤ ("bogus: could not find type " : String).length := by
        decide
      omega

theorem verifyBitmap_error_len (name : Name) (owner : Owner) (bm : List Nat)
    (e : String) (h : verifyBitmap name owner bm = .error e) :
    27 ≤ e.length := by
  unfold verifyBitmap at h
  cases hb : bitmapLoop owner name bm false with
  | error e2 =>
    rw [hb] at h
    simp only [Except.error.injEq] at h
    subst h
    exact bitmapLoop_error_len owner name bm false e2 hb
  | ok r =>
    rw [hb] at h
    simp only [] at h
    by_cases hd : (owner.delegation && !r) = true
    · rw [if_pos hd] at h
      simp only [Except.error.injEq] at h
      subst h
      rw [String.length_append, String.length_append]
      have h27 :
          27 ≤ ("bogus: claim to have a delegation yet no NS in NSEC "
            : String).length := by decide
      omega
    · rw [if_neg hd] at h
      exact Except.noConfusion h

theorem nsecGo_no_fuelout (owners : OMap) (origin : Name) :
    ∀ (fuel : Nat) (name : Name) (seen : List Name),
      keysNotIn owners seen + 2 ≤ fuel →
      nsecGo owners origin fuel name seen ≠
        .error "nsec walk ran out of fuel" := by
  intro fuel
  induction fuel with
  | zero => intro name seen h; omega
  | succ fuel ih =>
    intro name seen hf
    simp only [nsecGo]
    cases hl : lookupOwner owners name with
    | none =>
      intro hc
      exact absurd (Except.error.inj hc) (by decide)
    | some owner =>
      simp only []
      cases he : extractSet owner.rrs name tNSEC with
      | nil =>
        simp only []
        intro hc
        refine ne_fuel_of_len _ ?_ (Except.error.inj hc)
        rw [String.length_append]
        have h27 : 27 ≤ ("bogus: NSEC must exist for " : String).length := by
          decide
        omega
      | cons rr rest =>
        cases rest with
        | cons r2 r3 =>
          simp only []
          intro hc
          refine ne_fuel_of_len _ ?_ (Except.error.inj hc)
          rw [String.length_append]
          have h27 : 27 ≤ ("bogus: NSEC must exist for " : String).length := by
            decide
          omega
        | nil =>
          simp only []
          cases hb : verifyBitmap name owner rr.nsecTypes with
          | error e =>
            simp only []
            intro hc
            exact ne_fuel_of_len e
              (verifyBitmap_error_len name owner rr.nsecTypes e hb)
              (Except.error.inj hc)
          | ok u =>
            cases u
            simp only []
            by_cases hmem : rr.nextDomain ∈ seen
            · rw [if_pos hmem]
              by_cases horg : rr.nextDomain = origin
              · rw [if_pos horg]
                intro hc
                exact Except.noConfusion hc
              · rw [if_neg horg]
                intro hc
                exact absurd (Except.error.inj hc) (by decide)
            · rw [if_neg hmem]
              by_cases hkey : rr.nextDomain ∈ owners.map Prod.fst
              · apply ih
                have hlt := keysNotIn_lt owners seen rr.nextDomain hkey hmem
                omega
              · cases fuel with
                | zero =>
                  exfalso
                  have := keysNotIn_le_length owners seen
                  omega
                | succ f2 =>
                  simp only [nsecGo]
                  rw [lookupOwner_eq_none owners rr.nextDomain hkey]
                  intro hc
                  exact absurd (Except.error.inj hc) (by decide)

theorem length_le_of_nodup_keys (seen : List Name) (owners : OMap)
    (hnd : seen.Nodup)
    (hsub : ∀ n ∈ seen, ∃ o, lookupOwner owners n = some o) :
    seen.length ≤ owners.length := by
  classical
  have h1 : seen.toFinset.card = seen.length := List.toFinset_card_of_nodup hnd
  have h2 : seen.toFinset ⊆ (owners.map Prod.fst).toFinset := by
    intro x hx
    rw [List.mem_toFinset] at hx ⊢
    obtain ⟨o, ho⟩ := hsub x hx
    exact List.mem_map.mpr ⟨(x, o), lookupOwner_mem owners x o ho, rfl⟩
  have h3 := Finset.card_le_card h2
  have h4 := List.toFinset_card_le (owners.map Prod.fst)
  rw [List.length_map] at h4
  omega

/-- Claim C2: `verifyNSEC` succeeds with visited-name list `seen`
exactly when `seen` is a chain in the spec's sense: it starts at the
origin, visits no owner twice, every visited owner carries exactly one
NSEC record whose bitmap types all have matching records there (NS
required for delegations), consecutive visits are linked by the next
pointers, and the final pointer returns to the origin — any revisit of
a non-origin name, and every other violation, fails with a bogus
classification (the embedding's fuel is never the cause of failure). -/
theorem axfr_C2_verifyNSEC_chain (owners : OMap) (origin : Name) :
    (∀ seen, verifyNSEC owners origin = .ok seen ↔
      SpecNsecChain owners origin seen) ∧
    verifyNSEC owners origin ≠ .error "nsec walk ran out of fuel" := by
  constructor
  · intro seen
    constructor
    · intro h
      exact nsecGo_ok_spec owners origin (owners.length + 2) origin [origin]
        seen ⟨⟨[], rfl, by simp⟩, rfl, by simp, by simp⟩ h
    · intro hspec
      unfold verifyNSEC
      obtain ⟨hhead, hnd, hnodes, hchain⟩ := hspec
      cases seen with
      | nil => exact Option.noConfusion hhead
      | cons a suf =>
        have ha : a = origin := by simpa using hhead
        subst ha
        have hfuel : suf.length + 1 ≤ owners.length + 2 := by
          have hsub : ∀ n ∈ a :: suf, ∃ o, lookupOwner owners n = some o := by
            intro n hn
            obtain ⟨ow, rr, hl, _⟩ := hnodes n hn
            exact ⟨ow, hl⟩
          have := length_le_of_nodup_keys (a :: suf) owners hnd hsub
          simp only [List.length_cons] at this
          omega
        exact nsecGo_spec_ok owners a (a :: suf) hnodes hnd hhead suf [] a
          (owners.length + 2) rfl hchain hfuel
  · unfold verifyNSEC
    apply nsecGo_no_fuelout owners origin (owners.length + 2) origin [origin]
    have := keysNotIn_le_length owners [origin]
    omega

/-- Witness for C2: the characterization applied to the concrete C5 zone
shows its computed chain `[".", "example."]` satisfies the spec's chain
predicate. -/
theorem axfr_C2_verifyNSEC_chain_witness :
    SpecNsecChain c5res.names rootName [[], ["example"]] :=
  ((axfr_C2_verifyNSEC_chain c5res.names rootName).1 [[], ["example"]]).mp rfl

/-! ## Plugin orchestration (`src/lib/axfr.js` lines 200-404)

The emission pipeline of `sendAXFR`: collision handling via `pickRRs`
over the local store, then the merge loop over the names remaining in
the chain set. -/

namespace Plugin

/-- `pickRRs(name, hnsZone, mergeDB)`: without a collision return the
local records; on a collision, prefer-local (`!preferICANN`) deletes
the name from the chain set and returns the local records, while
prefer-external returns no records and leaves the chain set unchanged. -/
def pickRRs (preferICANN : Bool) (name : Name) (hnsZone : List RR)
    (chain : List Name) : List RR × List Name :=
  if name ∉ chain then (hnsZone, chain)
  else if ¬ preferICANN then (hnsZone, setDelete chain name)
  else ([], chain)

/-- One local-store entry of the `sendAXFR` loop: `pickRRs`, then emit
every non-RRSIG record (the `zone.length === 0` continue merely skips
an empty loop). -/
def localStep (preferICANN : Bool) (chain : List Name) (fqdn : Name)
    (zone : List RR) : List RR × List Name :=
  let pz := pickRRs preferICANN fqdn zone chain
  (pz.1.filter (fun rr => rr.type ≠ tRRSIG), pz.2)

/-- The local-store phase of `sendAXFR`: fold `localStep` over the
decoded (fqdn, zone) entries in store order, collecting the emitted
records and threading the chain set. -/
def localRun (preferICANN : Bool) :
    List (Name × List RR) → List Name → List RR × List Name
  | [], chain => ([], chain)
  | (n, z) :: rest, chain =>
    let st := localStep preferICANN chain n z
    let rst := localRun preferICANN rest st.2
    (st.1 ++ rst.1, rst.2)

/-- The record loop of the merge phase for one chain name `n`: skip
NSEC/RRSIG, emit the rest (tagged with `n`), and when an NS record's
target is in the glue set, remove the target and queue it in `glues`. -/
def mergeRRLoop (n : Name) (out : List (Name × RR)) (glue : List Name)
    (glues : List Name) : List RR → List (Name × RR) × List Name × List Name
  | [] => (out, glue, glues)
  | rr :: rest =>
    if rr.type = tNSEC ∨ rr.type = tRRSIG then
      mergeRRLoop n out glue glues rest
    else
      if rr.type = tNS ∧ rr.ns ∈ glue then
        mergeRRLoop n (out ++ [(n, rr)]) (setDelete glue rr.ns)
          (glues ++ [rr.ns]) rest
      else mergeRRLoop n (out ++ [(n, rr)]) glue glues rest

/-- One chain name of the merge loop: run the record loop over the
owner's records, then emit each queued glue target's records (tagged
with the glue name).  Chain names always exist in the map for a
verifier-produced Merge Result; a missing name (a JS crash) emits
nothing. -/
def mergeStep (names : OMap) (acc : List (Name × RR) × List Name)
    (n : Name) : List (Name × RR) × List Name :=
  match lookupOwner names n with
  | none => acc
  | some owner =>
    let step := mergeRRLoop n [] acc.2 [] owner.rrs
    let glueOut := step.2.2.flatMap (fun g =>
      match lookupOwner names g with
      | some o => o.rrs.map (fun rr => (g, rr))
      | none => [])
    (acc.1 ++ step.1 ++ glueOut, step.2.1)

/-- The merge phase of `sendAXFR`: iterate over the names remaining in
the chain set, threading the glue set. -/
def mergeRun (names : OMap) (glue : List Name) (chain : List Name) :
    List (Name × RR) :=
  (chain.foldl (mergeStep names) ([], glue)).1

end Plugin

theorem mem_setDelete {α : Type} [DecidableEq α] (s : List α) (a b : α) :
    b ∈ setDelete s a ↔ b ∈ s ∧ b ≠ a := by
  unfold setDelete
  simp [List.mem_filter]

theorem pickRRs_chain_subset (pref : Bool) (n : Name) (z : List RR)
    (chain : List Name) (x : Name)
    (hx : x ∈ (Plugin.pickRRs pref n z chain).2) : x ∈ chain := by
  unfold Plugin.pickRRs at hx
  split at hx
  · exact hx
  · split at hx
    · exact ((mem_setDelete chain n x).mp hx).1
    · exact hx

theorem localRun_chain_subset (pref : Bool) :
    ∀ (entries : List (Name × List RR)) (chain : List Name) (x : Name),
      x ∈ (Plugin.localRun pref entries chain).2 → x ∈ chain := by
  intro entries
  induction entries with
  | nil =>
    intro chain x hx
    simpa [Plugin.localRun] using hx
  | cons p rest ih =>
    intro chain x hx
    obtain ⟨n, z⟩ := p
    simp only [Plugin.localRun] at hx
    exact pickRRs_chain_subset pref n z chain x (ih _ x hx)

/-- Claim C9: for a name present both as a local entry and in the chain
set, prefer-local (`preferICANN = false`) emits the local records
(minus internal signatures) and removes the name from the chain set —
and since later steps only shrink the chain set, the merge loop never
visits the name again; prefer-external emits nothing locally and leaves
the name in the chain set for the merge phase. -/
theorem axfr_C9_collision_policy (name : Name) (zone : List RR)
    (chain : List Name) (h : name ∈ chain) :
    (Plugin.pickRRs false name zone chain = (zone, setDelete chain name) ∧
     Plugin.localStep false chain name zone =
       (zone.filter (fun rr => rr.type ≠ tRRSIG), setDelete chain name) ∧
     ∀ rest, name ∉ (Plugin.localRun false rest (setDelete chain name)).2) ∧
    (Plugin.pickRRs true name zone chain = ([], chain) ∧
     Plugin.localStep true chain name zone = ([], chain) ∧
     name ∈ (Plugin.localStep true chain name zone).2) := by
  have hp1 : Plugin.pickRRs false name zone chain =
      (zone, setDelete chain name) := by
    unfold Plugin.pickRRs
    rw [if_neg (by simpa using h), if_pos (by simp)]
  have hp2 : Plugin.pickRRs true name zone chain = ([], chain) := by
    unfold Plugin.pickRRs
    rw [if_neg (by simpa using h), if_neg (by simp)]
  refine ⟨⟨hp1, ?_, ?_⟩, hp2, ?_, ?_⟩
  · unfold Plugin.localStep
    rw [hp1]
  · intro rest hmem
    have := localRun_chain_subset false rest (setDelete chain name) name hmem
    exact ((mem_setDelete chain name name).mp this).2 rfl
  · unfold Plugin.localStep
    rw [hp2]
    simp
  · unfold Plugin.localStep
    rw [hp2]
    exact h

/-- Witness for C9 at a concrete collision. -/
theorem axfr_C9_collision_policy_witness :
    Plugin.pickRRs false ["x"] [] [["x"]] = ([], []) ∧
    Plugin.pickRRs true ["x"] [] [["x"]] = ([], [["x"]]) := by
  have h := axfr_C9_collision_policy ["x"] [] [["x"]] (by decide)
  exact ⟨h.1.1.trans (by decide), h.2.1⟩

theorem mergeRRLoop_inv (n : Name) :
    ∀ (rrs : List RR) (out : List (Name × RR)) (glue glues : List Name),
      (∀ p ∈ (Plugin.mergeRRLoop n out glue glues rrs).1,
        p ∈ out ∨ p.1 = n) ∧
      (∀ g ∈ (Plugin.mergeRRLoop n out glue glues rrs).2.2,
        g ∈ glues ∨ g ∈ glue) ∧
      (∀ g ∈ (Plugin.mergeRRLoop n out glue glues rrs).2.1, g ∈ glue) := by
  intro rrs
  induction rrs with
  | nil =>
    intro out glue glues
    exact ⟨fun p hp => Or.inl hp, fun g hg => Or.inl hg, fun g hg => hg⟩
  | cons rr rest ih =>
    intro out glue glues
    simp only [Plugin.mergeRRLoop]
    split
    · exact ih out glue glues
    · split
      · rename_i hskip hns
        obtain ⟨i1, i2, i3⟩ := ih (out ++ [(n, rr)]) (setDelete glue rr.ns)
          (glues ++ [rr.ns])
        refine ⟨fun p hp => ?_, fun g hg => ?_, fun g hg => ?_⟩
        · rcases i1 p hp with hin | htag
          · rcases List.mem_append.mp hin with h1 | h2
            · exact Or.inl h1
            · rw [List.mem_singleton] at h2
              subst h2
              exact Or.inr rfl
          · exact Or.inr htag
        · rcases i2 g hg with h1 | h2
          · rcases List.mem_append.mp h1 with ha | hb
            · exact Or.inl ha
            · rw [List.mem_singleton] at hb
              subst hb
              exact Or.inr hns.2
          · exact Or.inr ((mem_setDelete glue rr.ns g).mp h2).1
        · exact ((mem_setDelete glue rr.ns g).mp (i3 g hg)).1
      · obtain ⟨i1, i2, i3⟩ := ih (out ++ [(n, rr)]) glue glues
        refine ⟨fun p hp => ?_, i2, i3⟩
        rcases i1 p hp with hin | htag
        · rcases List.mem_append.mp hin with h1 | h2
          · exact Or.inl h1
          · rw [List.mem_singleton] at h2
            subst h2
            exact Or.inr rfl
        · exact Or.inr htag

theorem mergeStep_tags (names : OMap) (acc : List (Name × RR) × List Name)
    (n : Name) :
    (∀ p ∈ (Plugin.mergeStep names acc n).1,
      p ∈ acc.1 ∨ p.1 = n ∨ p.1 ∈ acc.2) ∧
    (∀ g ∈ (Plugin.mergeStep names acc n).2, g ∈ acc.2) := by
  unfold Plugin.mergeStep
  cases hl : lookupOwner names n with
  | none => exact ⟨fun p hp => Or.inl hp, fun g hg => hg⟩
  | some owner =>
    simp only []
    obtain ⟨i1, i2, i3⟩ := mergeRRLoop_inv n owner.rrs [] acc.2 []
    constructor
    · intro p hp
      rcases List.mem_append.mp hp with hp1 | hp2
      · rcases List.mem_append.mp hp1 with ha | hb
        · exact Or.inl ha
        · rcases i1 p hb with hfalse | htag
          · simp at hfalse
          · exact Or.inr (Or.inl htag)
      · rw [List.mem_flatMap] at hp2
        obtain ⟨g, hg, hpg⟩ := hp2
        have hga : g ∈ acc.2 := by
          rcases i2 g hg with hfalse | hglue
          · simp at hfalse
          · exact hglue
        cases hlg : lookupOwner names g with
        | none =>
          rw [hlg] at hpg
          simp at hpg
        | some o =>
          rw [hlg] at hpg
          simp only [] at hpg
          rw [List.mem_map] at hpg
          obtain ⟨rr, _, hrr⟩ := hpg
          subst hrr
          exact Or.inr (Or.inr hga)
    · intro g hg
      exact i3 g hg

theorem mergeRun_tags (names : OMap) :
    ∀ (chain : List Name) (acc : List (Name × RR) × List Name),
      (∀ p ∈ (chain.foldl (Plugin.mergeStep names) acc).1,
        p ∈ acc.1 ∨ p.1 ∈ chain ∨ p.1 ∈ acc.2) ∧
      (∀ g ∈ (chain.foldl (Plugin.mergeStep names) acc).2, g ∈ acc.2) := by
  intro chain
  induction chain with
  | nil =>
    intro acc
    exact ⟨fun p hp => Or.inl hp, fun g hg => hg⟩
  | cons n rest ih =>
    intro acc
    simp only [List.foldl_cons]
    obtain ⟨s1, s2⟩ := mergeStep_tags names acc n
    obtain ⟨r1, r2⟩ := ih (Plugin.mergeStep names acc n)
    constructor
    · intro p hp
      rcases r1 p hp with h1 | h2 | h3
      · rcases s1 p h1 with ha | hb | hc
        · exact Or.inl ha
        · exact Or.inr (Or.inl (by rw [hb]; simp))
        · exact Or.inr (Or.inr hc)
      · exact Or.inr (Or.inl (List.mem_cons_of_mem _ h2))
      · exact Or.inr (Or.inr (s2 _ h3))
    · intro g hg
      exact s2 g (r2 g hg)

theorem updOwner_origin_deleg (origin : Name) (o : Owner) (rr : RR)
    (hd : o.delegation = false) (hn : rr.name = origin) :
    (updOwner origin o rr).delegation = false := by
  unfold updOwner
  simp [hd, hn]

theorem addRR_origin_not_deleg (origin : Name) (m : OMap) (rr : RR)
    (hm : ∀ o, (origin, o) ∈ m → o.delegation = false) :
    ∀ o, (origin, o) ∈ addRR origin m rr → o.delegation = false := by
  intro o ho
  unfold addRR at ho
  split at ho
  · rw [List.mem_map] at ho
    obtain ⟨p, hp, hfp⟩ := ho
    by_cases hcase : p.1 = rr.name
    · rw [if_pos hcase] at hfp
      injection hfp with h1 h2
      subst h2
      have hporig : (origin, p.2) ∈ m := by
        rw [← h1]
        exact hp
      apply updOwner_origin_deleg origin p.2 rr (hm p.2 hporig)
      rw [← hcase]
      exact h1
    · rw [if_neg hcase] at hfp
      rw [hfp] at hp
      exact hm o hp
  · rcases List.mem_append.mp ho with h1 | h2
    · exact hm o h1
    · rw [List.mem_singleton] at h2
      injection h2 with h1 h2b
      subst h2b
      apply updOwner_origin_deleg origin ⟨false, []⟩ rr rfl
      exact h1.symm

theorem foldE_phase1_origin_not_deleg (origin : Name) :
    ∀ (rrs : List RR) (acc : OMap × List Name) (ow : OMap) (mg : List Name),
      (∀ o, (origin, o) ∈ acc.1 → o.delegation = false) →
      foldE (phase1RR origin) acc rrs = .ok (ow, mg) →
      ∀ o, (origin, o) ∈ ow → o.delegation = false := by
  intro rrs
  induction rrs with
  | nil =>
    intro acc ow mg hm h
    simp only [foldE, Except.ok.injEq] at h
    subst h
    exact hm
  | cons rr rest ih =>
    intro acc ow mg hm h
    simp only [foldE] at h
    by_cases h0 : rr.type = tNSEC3
    · rw [phase1RR_nsec3 origin acc rr h0] at h
      exact Except.noConfusion h
    · rw [phase1RR_ok origin acc rr h0] at h
      simp only [] at h
      exact ih _ ow mg (addRR_origin_not_deleg origin acc.1 rr hm) h

theorem phase1_origin_not_deleg (msgs : List Msg) (ow : OMap)
    (mg : List Name) (h : phase1 rootName msgs = .ok (ow, mg)) :
    ∀ o, (rootName, o) ∈ ow → o.delegation = false :=
  foldE_phase1_origin_not_deleg rootName _ ([], []) ow mg (by simp) h

/-- Claim C10: before the merge phase begins, `sendAXFR` deletes the
origin `.` from the Merge Result's chain set; local collision handling
can only shrink the chain set further; and every record the merge loop
emits — for a chain name or for a glue target — is emitted for a
non-origin name (the verifier's glue set cannot contain the origin,
whose computed parent is itself and is never marked a delegation).
The origin's data in the output therefore comes only from the locally
generated SOA and the local store. -/
theorem axfr_C10_origin_excluded (msgs : List Msg) (verify : List RR → Bool)
    (res : VRes) (pref : Bool) (entries : List (Name × List RR))
    (hres : verifyZone msgs verify = .ok res) :
    rootName ∉
      (Plugin.localRun pref entries (setDelete res.nsecChain rootName)).2 ∧
    ∀ p ∈ Plugin.mergeRun res.names res.glue
        (Plugin.localRun pref entries (setDelete res.nsecChain rootName)).2,
      p.1 ≠ rootName := by
  have hchain0 : rootName ∉ setDelete res.nsecChain rootName := by
    rw [mem_setDelete]
    simp
  have hchainF : rootName ∉
      (Plugin.localRun pref entries (setDelete res.nsecChain rootName)).2 :=
    fun hmem => hchain0 (localRun_chain_subset pref entries _ rootName hmem)
  refine ⟨hchainF, ?_⟩
  have hglue : rootName ∉ res.glue := by
    intro hg
    obtain ⟨mg, h1, h2, _⟩ := verifyZone_ok_parts msgs verify res hres
    have hiff := foldE_phase2_mem verify res.names mg res.names [] res.glue h2
      rootName
    rw [hiff] at hg
    rcases hg with hfalse | ⟨o, ho, hc⟩
    · simp at hfalse
    · unfold glueCond at hc
      simp only [Bool.and_eq_true] at hc
      have hpar := hc.1.2
      unfold parentIsDelegation at hpar
      have hfrom : fromNeg1 rootName = rootName := rfl
      rw [hfrom] at hpar
      cases hl : lookupOwner res.names rootName with
      | none =>
        rw [hl] at hpar
        exact Bool.noConfusion hpar
      | some rowner =>
        rw [hl] at hpar
        simp only [] at hpar
        have hdeleg := phase1_origin_not_deleg msgs res.names mg h1 rowner
          (lookupOwner_mem res.names rootName rowner hl)
        rw [hdeleg] at hpar
        exact Bool.noConfusion hpar
  intro p hp heq
  unfold Plugin.mergeRun at hp
  obtain ⟨t1, _⟩ := mergeRun_tags res.names
    (Plugin.localRun pref entries (setDelete res.nsecChain rootName)).2
    ([], res.glue)
  rcases t1 p hp with hfalse | h2 | h3
  · simp at hfalse
  · rw [heq] at h2
    exact hchainF h2
  · rw [heq] at h3
    exact hglue h3

/-- Witness for C10 at the concrete C5 zone with an empty local store. -/
theorem axfr_C10_origin_excluded_witness :
    rootName ∉
      (Plugin.localRun false [] (setDelete c5res.nsecChain rootName)).2 :=
  (axfr_C10_origin_excluded c5msgs (fun _ => true) c5res false [] rfl).1

end Axfr
